import Mathlib

/-!
Verification development for the portfolio tracker repository.

The historical performance reconstruction engine of the application is
shallowly embedded below: timestamps are integers (epoch milliseconds),
calendar dates are integers (days since the epoch, matching the UTC date
string derived via toISOString), prices and balances are rational numbers,
and the JSON-object maps of the program are association lists in insertion
order, matching the iteration order of string-keyed objects.
-/

namespace PortfolioTracker

/-! Time and date helpers. -/

abbrev Ms := Int

def msPerHour : Int := 3600000

def msPerSixHours : Int := 21600000

def msPerDay : Int := 86400000

/-- Calendar day of a UTC timestamp, matching toISOString date extraction. -/
def dateOfTs (ts : Ms) : Int := ts.fdiv msPerDay

/-- Ceiling division used for Math.ceil of a timestamp span over a day. -/
def ceilDiv (a b : Int) : Int := -((-a).fdiv b)

/-! Association maps in JS object insertion order. Lookup finds the first
binding; insert overwrites an existing binding in place or appends. -/

def mapLookup {κ β : Type} [DecidableEq κ] : List (κ × β) → κ → Option β
  | [], _ => none
  | (k, v) :: rest, key => if k = key then some v else mapLookup rest key

def mapInsert {κ β : Type} [DecidableEq κ] : List (κ × β) → κ → β → List (κ × β)
  | [], key, v => [(key, v)]
  | (k, w) :: rest, key, v =>
      if k = key then (key, v) :: rest else (k, w) :: mapInsert rest key v

def keysNodup {κ β : Type} (m : List (κ × β)) : Prop := (m.map Prod.fst).Nodup

/-! Data model. -/

inductive Category where
  | crypto
  | stocks
  | gold
deriving DecidableEq, Repr

structure Asset where
  id : String
  name : String
  category : Category
  symbol : Option String
  coinstatsId : Option String
  balance : ℚ
  purchaseDay : Option Int
  buyPrice : Option ℚ
deriving DecidableEq, Repr

/-- A transformed price point: date is the UTC calendar day, timestamp the
epoch milliseconds (possibly snapped to a grid), price the quoted price. -/
structure PricePoint where
  date : Int
  timestamp : Ms
  price : ℚ
deriving DecidableEq, Repr

/-! TimeSeriesCache: the HistoricalPriceAPI getCache and setCache pair over
the persisted store. An entry is a data series plus its write timestamp. -/

structure CacheEntry where
  data : List PricePoint
  timestamp : Ms
  permanent : Bool
deriving DecidableEq, Repr

abbrev CacheStore := List (String × CacheEntry)

/-- The underscore character, code point 95. -/
def underscoreChar : Char := Char.ofNat 95

/-- String split on a separator character, the JS split with a one-character
separator: an empty input yields one empty part. -/
def splitOnChar (sep : Char) : List Char → List (List Char)
  | [] => [[]]
  | c :: rest =>
      let ps := splitOnChar sep rest
      if c = sep then [] :: ps
      else
        match ps with
        | [] => [[c]]
        | p :: ps' => (c :: p) :: ps'

/-- Trailing period component of a cache key, the part after the last
underscore, as in the source where the key format is identifier underscore
days and the parts array is indexed at its last position. -/
def lastPart (key : String) : String :=
  ⟨(splitOnChar underscoreChar key.data).getLastD []⟩

/-- TTL selected by the trailing period component of the key: five minutes
for the 24H view, thirty minutes for the 1W view, a day otherwise. -/
def cacheMaxAge (key : String) : Int :=
  let d := lastPart key
  if d = "1" ∨ d = "24h" then 5 * 60 * 1000
  else if d = "7" ∨ d = "1w" then 30 * 60 * 1000
  else 24 * 60 * 60 * 1000

/-- Read of the whole cache at a given time: entries with a falsy (zero)
write timestamp or whose age reaches the TTL are dropped, which makes an
expired entry behave identically to a miss. -/
def getCache (now : Ms) (store : CacheStore) : CacheStore :=
  store.filter fun kv =>
    decide (kv.2.timestamp ≠ 0) && decide (now - kv.2.timestamp < cacheMaxAge kv.1)

/-- Write of one key: the source first prunes via getCache, then stores the
data with the current time and a permanent mark. -/
def setCache (now : Ms) (store : CacheStore) (key : String)
    (data : List PricePoint) : CacheStore :=
  mapInsert (getCache now store) key ⟨data, now, true⟩

/-! Downsampler. -/

/-- Keep every step-th element, the filter on index modulo step. -/
def idxFilter {α : Type} (l : List α) (step : Nat) : List α :=
  (l.enum.filter fun p => p.1 % step == 0).map Prod.snd

/-- Snap a point timestamp down to the start of its containing interval; the
date field is kept unchanged, as in the source. -/
def snapPoint (intervalMs : Int) (p : PricePoint) : PricePoint :=
  { p with timestamp := (p.timestamp.fdiv intervalMs) * intervalMs }

/-- Downsample a history to the target granularity of the period token.
For 24h keep every 12th point snapped to one hour, for 1w every 6th point
snapped to six hours, and for all coarser tokens collapse to one point per
calendar day keeping the last point of each day and sorting by timestamp.
The original last point is appended when the stride did not keep the last
index; in the source this is a reference comparison against the in-place
snapped array, which holds exactly when the last index is off stride. -/
def downsampleHistory (history : List PricePoint) (period : String) :
    List PricePoint :=
  if history.length < 2 then history
  else if period = "24h" ∨ period = "1w" then
    let step : Nat := if period = "24h" then 12 else 6
    let intervalMs : Int := if period = "24h" then msPerHour else msPerSixHours
    let filtered := (idxFilter history step).map (snapPoint intervalMs)
    if (history.length - 1) % step == 0 then filtered
    else filtered ++ [history.getLastD ⟨0, 0, 0⟩]
  else
    let uniqueDays := history.foldl (fun m p => mapInsert m p.date p) []
    (uniqueDays.map Prod.snd).mergeSort fun a b => a.timestamp ≤ b.timestamp

/-! PriceHistoryFetcher. The external world is a fixed environment: the
charts endpoint outcome and the single-coin endpoint outcome per identifier,
a pseudo-random stream, the current clock and the runtime timezone offset
east of UTC in milliseconds. The mutable state is the cache store plus the
consumed length of the random stream. -/

inductive ApiError where
  | rateLimit
  | httpError (status : Nat)
  | networkError
deriving DecidableEq, Repr

/-- Outcome of the single-coin endpoint used by the fallback: the fetch can
reject, return a non-ok status, return a payload without a price, or return
a price. -/
inductive SpotOutcome where
  | thrown (e : ApiError)
  | notOk
  | noPrice
  | price (p : ℚ)
deriving DecidableEq, Repr

structure HistEntry where
  date : Int
  timestamp : Ms
  total : ℚ
  crypto : ℚ
  stocks : ℚ
  gold : ℚ
deriving DecidableEq, Repr

structure Env where
  assets : List Asset
  histStore : List HistEntry
  charts : String → String → Except ApiError (List (Int × ℚ))
  spot : String → SpotOutcome
  rand : Nat → ℚ
  now : Ms
  tz : Ms

structure St where
  cache : CacheStore
  randIdx : Nat
deriving DecidableEq, Repr

/-- Requested day count: a number or the literal max token. -/
inductive DaysArg where
  | n (v : Int)
  | max
deriving DecidableEq, Repr

/-- The all-time test used throughout the source: days is the max token or
the number zero. -/
def DaysArg.isAllMode : DaysArg → Bool
  | .max => true
  | .n v => v == 0

def DaysArg.str : DaysArg → String
  | .max => "max"
  | .n v => toString v

/-- Provider period token from the day count, the chained conditional of the
source fetch. -/
def periodToken (d : DaysArg) : String :=
  if d.isAllMode then "all"
  else match d with
    | .max => "all"
    | .n v =>
        if v ≤ 1 then "24h"
        else if v ≤ 7 then "1w"
        else if v ≤ 30 then "1m"
        else if v ≤ 90 then "3m"
        else if v ≤ 180 then "6m"
        else if v ≤ 365 then "1y"
        else "all"

def cacheKey (identifier : String) (d : DaysArg) : String :=
  identifier ++ "_" ++ d.str

/-- Transformation of the raw charts payload of second-resolution pairs into
price points with millisecond timestamps and UTC calendar days. -/
def transformCharts (raw : List (Int × ℚ)) : List PricePoint :=
  raw.map fun pr => ⟨dateOfTs (pr.1 * 1000), pr.1 * 1000, pr.2⟩

/-- Synthetic fallback series around the current spot price. The loop of the
source counts i from numDays down to zero, producing one point per day with
a variance of (random - one half) times 0.02; the random stream index is
threaded. A rejected spot fetch propagates; a non-ok status or a falsy price
yields an empty series. -/
def createFallbackHistory (env : Env) (randIdx : Nat) (coinId : String)
    (d : DaysArg) : Except ApiError (List PricePoint) × Nat :=
  match env.spot coinId with
  | .thrown e => (.error e, randIdx)
  | .notOk => (.ok [], randIdx)
  | .noPrice => (.ok [], randIdx)
  | .price currentPrice =>
      let numDays : Int := if d.isAllMode then 365 else match d with
        | .max => 365
        | .n v => v
      let count : Nat := (numDays + 1).toNat
      let pts := (List.range count).map fun (j : Nat) =>
        let ts := env.now - (numDays - (j : Int)) * msPerDay
        let variance := (env.rand (randIdx + j) - 1/2) * (2/100)
        let price := currentPrice * (1 + variance)
        (⟨dateOfTs ts, ts, price⟩ : PricePoint)
      (.ok pts, randIdx + count)

/-- Model of fetchHistoricalPrices. On a cache hit the cached data returns
at once. On a miss the rate-limited task runs: in the source the task
promise is returned from inside the try block without an await, so a
rejection of that promise bypasses the catch block entirely and propagates
to the caller; the synthetic fallback in the catch block is unreachable
from this path. The model therefore propagates the task error directly. On
success the transformed series is downsampled, written to the cache and
returned. -/
def fetchHistoricalPrices (env : Env) (st : St) (coinId : String)
    (d : DaysArg) : Except ApiError (List PricePoint) × St :=
  let key := cacheKey coinId d
  let cache := getCache env.now st.cache
  match mapLookup cache key with
  | some e => (.ok e.data, st)
  | none =>
      match env.charts coinId (periodToken d) with
      | .error e => (.error e, st)
      | .ok raw =>
          let finalHistory := downsampleHistory (transformCharts raw) (periodToken d)
          (.ok finalHistory,
            { st with cache := setCache env.now st.cache key finalHistory })

/-- The behaviour the catch block of the source was written to produce, had
the task promise been awaited inside the try block: a task failure falls
back to the synthetic series, which is not written to the cache, and a
failure of the fallback fetch itself yields an empty series. Kept beside
the faithful model to state the divergence. -/
def fetchHistoricalPricesAwaited (env : Env) (st : St) (coinId : String)
    (d : DaysArg) : Except ApiError (List PricePoint) × St :=
  let key := cacheKey coinId d
  let cache := getCache env.now st.cache
  match mapLookup cache key with
  | some e => (.ok e.data, st)
  | none =>
      match env.charts coinId (periodToken d) with
      | .ok raw =>
          let finalHistory := downsampleHistory (transformCharts raw) (periodToken d)
          (.ok finalHistory,
            { st with cache := setCache env.now st.cache key finalHistory })
      | .error _ =>
          match createFallbackHistory env st.randIdx coinId d with
          | (.ok pts, idx) => (.ok pts, { st with randIdx := idx })
          | (.error _, idx) => (.ok [], { st with randIdx := idx })

/-- CoinStats identifier of an asset: the coinstatsId when truthy, otherwise
the lowercased symbol. -/
def identifierOf (a : Asset) : String :=
  match a.coinstatsId with
  | some c => if c = "" then (a.symbol.getD "").toLower else c
  | none => (a.symbol.getD "").toLower

structure BatchRec where
  asset : Asset
  priceHistory : List PricePoint
  fromCache : Bool
deriving DecidableEq, Repr

/-- Batch fetch: cached assets are resolved first in asset order, the rest
are fetched through the shared limiter; a failed fetch records an empty
series for that asset rather than failing the batch. The results object is
keyed by asset id. The concurrent fetches are modelled sequentially in
submission order, which fixes one interleaving of the cooperative model;
results are consumed by id lookup downstream, so the order is immaterial. -/
def batchFetchHistoricalPrices (env : Env) (st : St) (assets : List Asset)
    (d : DaysArg) : List (String × BatchRec) × St :=
  let cache := getCache env.now st.cache
  let hits := assets.foldl
    (fun m a =>
      match mapLookup cache (cacheKey (identifierOf a) d) with
      | some e => mapInsert m a.id ⟨a, e.data, true⟩
      | none => m)
    ([] : List (String × BatchRec))
  let toFetch := assets.filter fun a =>
    (mapLookup cache (cacheKey (identifierOf a) d)).isNone
  toFetch.foldl
    (fun acc a =>
      match fetchHistoricalPrices env acc.2 (identifierOf a) d with
      | (.ok h, s) => (mapInsert acc.1 a.id ⟨a, h, false⟩, s)
      | (.error _, s) => (mapInsert acc.1 a.id ⟨a, [], false⟩, s))
    (hits, st)

/-! PurchaseAwareReconstructor: the PurchaseDatePerformance object. -/

/-- Truthiness of the symbol field. -/
def symbolTruthy (a : Asset) : Bool :=
  match a.symbol with
  | some s => s ≠ ""
  | none => false

/-- Truthiness of the buyPrice field as a number. -/
def buyPriceTruthy (a : Asset) : Bool :=
  match a.buyPrice with
  | some q => q ≠ 0
  | none => false

/-- Holdings included in the accurate path: both a symbol and a purchase
date present. -/
def trackedOf (assets : List Asset) : List Asset :=
  assets.filter fun a => symbolTruthy a && a.purchaseDay.isSome

/-- Long-term test of the source: more than seven days, the max token, or
zero. -/
def isLongTerm (d : DaysArg) : Bool :=
  (match d with | .n v => decide (7 < v) | .max => false) || d.isAllMode

/-- The per-holding filter of the accurate path: a point is parsed as the
UTC midnight of its calendar day; future days are always dropped, days
before the window start are always dropped, and in long-term mode days
before the purchase date are dropped as well. -/
def filterRelevant (now startTs : Ms) (d : DaysArg) (purchaseDay : Int)
    (hist : List PricePoint) : List PricePoint :=
  hist.filter fun p =>
    let pdTs := p.date * msPerDay
    if pdTs > now then false
    else if pdTs < startTs then false
    else if isLongTerm d then decide (purchaseDay * msPerDay ≤ pdTs) else true

structure ResultEntry where
  asset : Asset
  priceHistory : List PricePoint
  balance : ℚ
  purchaseDay : Int
deriving DecidableEq, Repr

/-- Per-holding processing of the accurate path: filter the fetched series,
then, when the purchase day has no point, the buy price is truthy and the
purchase date is in all mode or on or after the window start, prepend one
synthesized point at the purchase day priced at the buy price. -/
def processAsset (now startTs : Ms) (d : DaysArg) (a : Asset)
    (hist : List PricePoint) : ResultEntry :=
  let pDay := a.purchaseDay.getD 0
  let relevant := filterRelevant now startTs d pDay hist
  let hasPurchasePoint := relevant.any fun p => p.date == pDay
  let isWithinWindow := d.isAllMode || decide (startTs ≤ pDay * msPerDay)
  if !hasPurchasePoint && buyPriceTruthy a && isWithinWindow then
    ⟨a, ⟨pDay, pDay * msPerDay, a.buyPrice.getD 0⟩ :: relevant, a.balance, pDay⟩
  else
    ⟨a, relevant, a.balance, pDay⟩

/-- One breakdown record of an aggregated bucket. The purchase day is kept
in the accurate path and absent in the hypothetical path. -/
structure BreakEntry where
  value : ℚ
  price : ℚ
  balance : ℚ
  name : String
  purchaseDay : Option Int
deriving DecidableEq, Repr

structure Bucket where
  date : Int
  timestamp : Ms
  total : ℚ
  crypto : ℚ
  stocks : ℚ
  gold : ℚ
  breakdown : List (String × BreakEntry)
  isAccurate : Bool
deriving DecidableEq, Repr

def catGet (b : Bucket) : Category → ℚ
  | .crypto => b.crypto
  | .stocks => b.stocks
  | .gold => b.gold

def catAdd (b : Bucket) : Category → ℚ → Bucket
  | .crypto, q => { b with crypto := b.crypto + q }
  | .stocks, q => { b with stocks := b.stocks + q }
  | .gold, q => { b with gold := b.gold + q }

/-- Bucket timestamp for a point: hour floor for a window of at most one
day, six-hour floor up to seven days; beyond that the source sets hours,
minutes, seconds and milliseconds to zero on a Date, which is the midnight
of the local timezone, modelled with the constant offset tz east of UTC. -/
def bucketTs (days : Int) (tz : Ms) (ts : Ms) : Ms :=
  if days ≤ 1 then (ts.fdiv msPerHour) * msPerHour
  else if days ≤ 7 then (ts.fdiv msPerSixHours) * msPerSixHours
  else ((ts + tz).fdiv msPerDay) * msPerDay - tz

def newBucket (key : Ms) : Bucket :=
  ⟨dateOfTs key, key, 0, 0, 0, 0, [], true⟩

abbrev BMap := List (Ms × Bucket)

/-- Update of one bucket by one price point of one holding: the point
contributes zero when its calendar day precedes the purchase day and price
times balance otherwise, and a previously recorded contribution of the same
holding is subtracted from the total and the category before the new
contribution is added and the breakdown entry is overwritten. -/
def updateBucket (b0 : Bucket) (r : ResultEntry) (p : PricePoint) : Bucket :=
  let value : ℚ := if p.date < r.purchaseDay then 0 else p.price * r.balance
  let b1 :=
    match mapLookup b0.breakdown r.asset.id with
    | some old =>
        catAdd { b0 with total := b0.total - old.value } r.asset.category (-old.value)
    | none => b0
  let b2 := catAdd { b1 with total := b1.total + value } r.asset.category value
  { b2 with
    breakdown := mapInsert b2.breakdown r.asset.id
      ⟨value, p.price, r.balance, r.asset.name, some r.purchaseDay⟩ }

/-- Processing of one price point of one holding into the bucket map: the
point lands in the bucket of its snapped timestamp, which is created on
first touch. -/
def applyPoint (days : Int) (tz : Ms) (m : BMap) (r : ResultEntry)
    (p : PricePoint) : BMap :=
  let key := bucketTs days tz p.timestamp
  let b0 := (mapLookup m key).getD (newBucket key)
  mapInsert m key (updateBucket b0 r p)

/-- Aggregation over all holdings: every point of every non-empty series is
folded through applyPoint. The startTs parameter mirrors the unused
startDate parameter of the source. -/
def aggregatePortfolioHistory (results : List ResultEntry) (startTs : Ms)
    (days : Int) (tz : Ms) : BMap :=
  results.foldl
    (fun m r =>
      if r.priceHistory.isEmpty then m
      else r.priceHistory.foldl (fun m' p => applyPoint days tz m' r p) m)
    ([] : BMap)

/-- Stable insertion into a timestamp-sorted list, matching the ascending
comparator sort of the source. -/
def insertByTs (p : Bucket) : List Bucket → List Bucket
  | [] => [p]
  | q :: qs => if p.timestamp < q.timestamp then p :: q :: qs else q :: insertByTs p qs

def sortByTs (l : List Bucket) : List Bucket := l.foldr insertByTs []

/-- The sorted bucket list produced from the aggregation map. -/
def aggregatedHistory (results : List ResultEntry) (startTs : Ms)
    (days : Int) (tz : Ms) : List Bucket :=
  sortByTs ((aggregatePortfolioHistory results startTs days tz).map Prod.snd)

/-- Window start of the accurate path: in all mode the earliest purchase
midnight folded from an initial value of now, otherwise now minus the day
count in milliseconds. -/
def startTsOf (env : Env) (d : DaysArg) : Ms :=
  if d.isAllMode then
    (trackedOf env.assets).foldl
      (fun e a =>
        let p := (a.purchaseDay.getD 0) * msPerDay
        if p < e then p else e)
      env.now
  else match d with
    | .max => env.now
    | .n v => env.now - v * msPerDay

/-- Ceiling of the window span in days, the fetch window of the accurate
path. -/
def totalDaysOf (env : Env) (d : DaysArg) : Int :=
  ceilDiv (env.now - startTsOf env d) msPerDay

/-- The accurate reconstruction: filter to holdings with symbol and
purchase date, compute the window, batch fetch one series per holding,
process each holding and aggregate, returning the buckets sorted ascending
by timestamp. Returns none when no holding qualifies. -/
def calculateAccuratePerformance (env : Env) (st : St) (d : DaysArg) :
    Option (List Bucket) × St :=
  let tracked := trackedOf env.assets
  if tracked.isEmpty then (none, st)
  else
    let startTs := startTsOf env d
    let totalDays := totalDaysOf env d
    let fetched := batchFetchHistoricalPrices env st tracked (.n totalDays)
    let results := tracked.map fun a =>
      match mapLookup fetched.1 a.id with
      | none => (⟨a, [], 0, a.purchaseDay.getD 0⟩ : ResultEntry)
      | some rec => processAsset env.now startTs d a rec.priceHistory
    (some (aggregatedHistory results startTs totalDays env.tz), fetched.2)

/-- Summary statistics. The history series itself is returned to the caller
in the source; only the scalar fields and the accuracy tags are modelled. -/
structure Stats where
  oldest : ℚ
  newest : ℚ
  change : ℚ
  changePercent : ℚ
  high : ℚ
  low : ℚ
  avg : ℚ
  dataPoints : Nat
  isAccurate : Bool
  isHypothetical : Bool
deriving DecidableEq, Repr

def listMax (l : List ℚ) : ℚ := l.foldl max (l.headD 0)

def listMin (l : List ℚ) : ℚ := l.foldl min (l.headD 0)

def listAvg (l : List ℚ) : ℚ := l.sum / (l.length : ℚ)

/-- Statistics of the accurate tier, tagged accurate and not hypothetical. -/
def mkAccurateStats (h : List Bucket) : Stats :=
  let values := h.map Bucket.total
  let oldest := (h.headD (newBucket 0)).total
  let newest := (h.getLastD (newBucket 0)).total
  { oldest := oldest, newest := newest, change := newest - oldest,
    changePercent := if 0 < oldest then (newest - oldest) / oldest * 100 else 0,
    high := listMax values, low := listMin values, avg := listAvg values,
    dataPoints := h.length, isAccurate := true, isHypothetical := false }

/-- The calculateStats entry of PurchaseDatePerformance: the accurate
reconstruction with fewer than two points is a null result. -/
def calculateStats (env : Env) (st : St) (d : DaysArg) : Option Stats × St :=
  match calculateAccuratePerformance env st d with
  | (none, st') => (none, st')
  | (some h, st') =>
      if h.length < 2 then (none, st') else (some (mkAccurateStats h), st')

/-! HistoryTracker and the hypothetical tier. -/

/-- Range read of the recorded daily snapshots: zero means the whole store,
a positive count keeps the last count entries. -/
def getRange (store : List HistEntry) (days : Int) : List HistEntry :=
  if days = 0 then store
  else if 0 < days then store.drop (store.length - days.toNat)
  else store.drop (-days).toNat

def rangeArgOf (d : DaysArg) : Int :=
  if d.isAllMode then 0 else match d with | .max => 0 | .n v => v

/-- Statistics of the recorded-snapshot tier, tagged neither accurate nor
hypothetical. -/
def mkLocalStats (lh : List HistEntry) : Stats :=
  let values := lh.map HistEntry.total
  let oldest := (lh.headD ⟨0, 0, 0, 0, 0, 0⟩).total
  let newest := (lh.getLastD ⟨0, 0, 0, 0, 0, 0⟩).total
  { oldest := oldest, newest := newest, change := newest - oldest,
    changePercent := if 0 < oldest then (newest - oldest) / oldest * 100 else 0,
    high := listMax values, low := listMin values, avg := listAvg values,
    dataPoints := lh.length, isAccurate := false, isHypothetical := false }

/-- One point of the unanchored full-history aggregation, keyed by calendar
day; no zero fill and no double-count guard exist in this path. -/
def applySimplePoint (m : BMap) (a : Asset) (balance : ℚ) (p : PricePoint) :
    BMap :=
  let b0 := (mapLookup m p.date).getD ⟨p.date, p.timestamp, 0, 0, 0, 0, [], false⟩
  let value := p.price * balance
  let b1 := catAdd { b0 with total := b0.total + value } a.category value
  let b2 := { b1 with
    breakdown := mapInsert b1.breakdown a.id ⟨value, p.price, balance, a.name, none⟩ }
  mapInsert m p.date b2

/-- Stable insertion into a date-sorted list, the date comparator sort of
the hypothetical path. -/
def insertByDate (p : Bucket) : List Bucket → List Bucket
  | [] => [p]
  | q :: qs => if p.date < q.date then p :: q :: qs else q :: insertByDate p qs

def sortByDate (l : List Bucket) : List Bucket := l.foldr insertByDate []

/-- The unanchored estimate: all holdings with a symbol, fetched for the
raw day count, aggregated by calendar day with no purchase-date logic. -/
def calculatePortfolioHistory (env : Env) (st : St) (d : DaysArg) :
    Option (List Bucket) × St :=
  let tracked := env.assets.filter symbolTruthy
  if tracked.isEmpty then (none, st)
  else
    let fetched := batchFetchHistoricalPrices env st tracked d
    let m := fetched.1.foldl
      (fun m kv =>
        if kv.2.priceHistory.isEmpty then m
        else kv.2.priceHistory.foldl
          (fun m' p => applySimplePoint m' kv.2.asset kv.2.asset.balance p) m)
      ([] : BMap)
    (some (sortByDate (m.map Prod.snd)), fetched.2)

/-- Statistics of the hypothetical tier, tagged hypothetical. -/
def mkHypotheticalStats (h : List Bucket) : Stats :=
  let values := h.map Bucket.total
  let oldest := (h.headD (newBucket 0)).total
  let newest := (h.getLastD (newBucket 0)).total
  { oldest := oldest, newest := newest, change := newest - oldest,
    changePercent := if 0 < oldest then (newest - oldest) / oldest * 100 else 0,
    high := listMax values, low := listMin values, avg := listAvg values,
    dataPoints := h.length, isAccurate := false, isHypothetical := true }

/-- The three-tier performance calculation: the accurate tier when it
yields at least two points, else the recorded snapshots when at least two
exist in range, else the unanchored estimate when it yields at least two
points, else null. -/
def calculatePerformance (env : Env) (st : St) (d : DaysArg) :
    Option Stats × St :=
  let tier1 := calculateStats env st d
  let rest : St → Option Stats × St := fun st1 =>
    let localHistory := getRange env.histStore (rangeArgOf d)
    if 2 ≤ localHistory.length then (some (mkLocalStats localHistory), st1)
    else
      match calculatePortfolioHistory env st1 d with
      | (none, st2) => (none, st2)
      | (some h, st2) =>
          if h.length < 2 then (none, st2) else (some (mkHypotheticalStats h), st2)
  match tier1 with
  | (some s, st1) => if 2 ≤ s.dataPoints then (some s, st1) else rest st1
  | (none, st1) => rest st1

/-! RateLimiter batch settlement. A batch of released tasks is modelled by
the list of the outcomes of its task functions; a settlement records how
each promise returned by execute is resolved or rejected. -/

inductive SettledResult (ε α : Type) where
  | fulfilled (value : α)
  | rejected (reason : ε)
deriving DecidableEq, Repr

/-- Promise.allSettled over the task outcomes: a fulfilled status with the
value, or a rejected status with the reason, one per task, never failing. -/
def promiseAllSettled {ε α : Type} (outcomes : List (Except ε α)) :
    List (SettledResult ε α) :=
  outcomes.map fun o =>
    match o with
    | .ok v => .fulfilled v
    | .error e => .rejected e

/-- Settlement step of processQueue in the current app module: allSettled
over the batch, then each task promise is resolved with its own value or
rejected with its own reason by index. -/
def processQueueSettle {ε α : Type} (batch : List (Except ε α)) :
    List (SettledResult ε α) :=
  let results := promiseAllSettled batch
  (batch.zip results).map fun pr =>
    match pr.2 with
    | .fulfilled v => .fulfilled v
    | .rejected e => .rejected e

/-- How a single outcome settles a promise. -/
def settledOf {ε α : Type} : Except ε α → SettledResult ε α
  | .ok v => .fulfilled v
  | .error e => .rejected e

/-- Settlement step of processQueue in the legacy module js slash app: the
batch runs under Promise.all, whose rejection with the first failing reason
is caught and used to reject every promise of the batch; only when every
task fulfils are the promises resolved with their own values. -/
def processQueueSettleLegacy {ε α : Type} (batch : List (Except ε α)) :
    List (SettledResult ε α) :=
  match batch.findSome? (fun o => match o with | .error e => some e | .ok _ => none) with
  | none => batch.map settledOf
  | some e => batch.map fun _ => .rejected e

/-! Heap model for deep cloning. The assets list lives in a heap of JSON
nodes addressed by naturals; arrays and objects hold the addresses of their
children. Utils.deepClone is the JSON stringify and parse round trip, which
reads the structure of the source value and rebuilds it in fresh
allocations, so the model reads from the heap as it stood at the call and
writes only fresh addresses. -/

inductive JScalar where
  | null
  | bool (b : Bool)
  | num (q : ℚ)
  | str (s : String)
deriving DecidableEq, Repr

inductive JNode where
  | scalar (s : JScalar)
  | arr (elems : List Nat)
  | obj (keys : List String) (vals : List Nat)
deriving DecidableEq, Repr

abbrev Heap := Nat → Option JNode

def hupdate (h : Heap) (a : Nat) (nd : JNode) : Heap :=
  fun b => if b = a then some nd else h b

/-- Pure JSON value read out of the heap. -/
inductive JVal where
  | scalar (s : JScalar)
  | arr (elems : List JVal)
  | obj (keys : List String) (vals : List JVal)

/-- Sequential read of a list of child addresses with a given reader. -/
def readChildren (rd : Nat → Option JVal) : List Nat → Option (List JVal)
  | [] => some []
  | a :: rest =>
      match rd a with
      | none => none
      | some v =>
          match readChildren rd rest with
          | none => none
          | some vs => some (v :: vs)

/-- Structural read of the value rooted at an address, with a recursion
fuel bounding the depth; JSON data is acyclic, so a large enough fuel
reads the whole value. -/
def readVal (h : Heap) : Nat → Nat → Option JVal
  | 0, _ => none
  | fuel + 1, a =>
      match h a with
      | none => none
      | some (.scalar s) => some (.scalar s)
      | some (.arr es) =>
          match readChildren (readVal h fuel) es with
          | none => none
          | some vs => some (.arr vs)
      | some (.obj ks es) =>
          match readChildren (readVal h fuel) es with
          | none => none
          | some vs => some (.obj ks vs)

/-- Sequential clone of a list of child addresses with a given cloner,
threading the target heap and the next fresh address. -/
def cloneChildren (cl : Nat → Heap → Nat → Option (Heap × Nat × Nat)) :
    List Nat → Heap → Nat → Option (Heap × List Nat × Nat)
  | [], tgt, next => some (tgt, [], next)
  | a :: rest, tgt, next =>
      match cl a tgt next with
      | none => none
      | some (t1, a1, n1) =>
          match cloneChildren cl rest t1 n1 with
          | none => none
          | some (t2, as1, n2) => some (t2, a1 :: as1, n2)

/-- Structural copy of the value rooted at an address into fresh addresses
of the target heap, reading from the source heap as it stood at the call. -/
def cloneAddr (h : Heap) : Nat → Nat → Heap → Nat → Option (Heap × Nat × Nat)
  | 0, _, _, _ => none
  | fuel + 1, a, tgt, next =>
      match h a with
      | none => none
      | some (.scalar s) => some (hupdate tgt next (.scalar s), next, next + 1)
      | some (.arr es) =>
          match cloneChildren (cloneAddr h fuel) es tgt next with
          | none => none
          | some (t1, as1, n1) => some (hupdate t1 n1 (.arr as1), n1, n1 + 1)
      | some (.obj ks es) =>
          match cloneChildren (cloneAddr h fuel) es tgt next with
          | none => none
          | some (t1, as1, n1) => some (hupdate t1 n1 (.obj ks as1), n1, n1 + 1)

/-- Utils.deepClone on the heap: the round trip reads the value rooted at
the address and allocates a structurally equal copy at fresh addresses of
the same heap. -/
def deepClone (h : Heap) (fuel : Nat) (a : Nat) (next : Nat) :
    Option (Heap × Nat × Nat) :=
  cloneAddr h fuel a h next

/-- PortfolioApp.getAssets on a valid in-memory assets cache: it returns
Utils.deepClone of the cache root. -/
def getAssets (h : Heap) (fuel : Nat) (assetsCacheRoot : Nat) (next : Nat) :
    Option (Heap × Nat × Nat) :=
  deepClone h fuel assetsCacheRoot next

/-- Children addresses of a node. -/
def nodeAddrs : JNode → List Nat
  | .scalar _ => []
  | .arr es => es
  | .obj _ es => es

/-- The program-owned region below k is closed: every node stored below k
points only below k. -/
def heapBounded (h : Heap) (k : Nat) : Prop :=
  ∀ a, a < k → ∀ nd, h a = some nd → ∀ b ∈ nodeAddrs nd, b < k

instance heapBoundedDecidable (h : Heap) (k : Nat) : Decidable (heapBounded h k) := by
  unfold heapBounded
  infer_instance

/-- Environment in which every charts request is rejected with a rate
limit error while the single-coin endpoint returns a spot price of 100;
the random stream is constant at one half, so the synthetic variance is
zero. -/
def envRateLimited : Env :=
  ⟨[], [], fun _ _ => .error .rateLimit, fun _ => .price 100,
    fun _ => 1/2, 1000 * msPerDay, 0⟩

/-- Holding used by the purchase-point-synthesis counterexample: one unit
of an asset with a buy price of 45 and a purchase date on day 200. -/
def assetFuture : Asset :=
  ⟨"a1", "Bitcoin", .crypto, some "BTC", some "btc", 1, some 200, some 45⟩

/-- Clock of the counterexample: day 100, five seconds past midnight. -/
def nowC5 : Ms := 100 * msPerDay + 5000

/-- Thirty-day window start of the counterexample. -/
def startC5 : Ms := nowC5 - 30 * msPerDay

/-- Fetched series of the counterexample: one in-window point on day 95. -/
def histC5 : List PricePoint := [⟨95, 95 * msPerDay, 50⟩]

/-- Holding used by the purchase-point-synthesis witness: purchase date on
day 95 inside the window, no fetched point on that day. -/
def assetW : Asset :=
  ⟨"w1", "Bitcoin", .crypto, some "BTC", some "btc", 1, some 95, some 45⟩

/-- Fetched series of the witness: one point on day 96. -/
def histW : List PricePoint := [⟨96, 96 * msPerDay, 50⟩]

/-- Value previously recorded in a bucket for a holding id, zero when the
holding has no breakdown entry there. -/
def prevContrib (b : Bucket) (id : String) : ℚ :=
  match mapLookup b.breakdown id with
  | some e => e.value
  | none => 0

/-- Result entry used by the aggregation witnesses: one unit of a crypto
holding purchased on day 10, with one pre-purchase point on day 5 and two
post-purchase points on day 12 landing in the same daily bucket. -/
def rAgg : ResultEntry :=
  ⟨⟨"a1", "Bitcoin", .crypto, some "BTC", some "btc", 1, some 10, some 45⟩,
    [⟨5, 5 * msPerDay, 50⟩, ⟨12, 12 * msPerDay, 60⟩, ⟨12, 12 * msPerDay + 7200000, 61⟩],
    1, 10⟩

/-- Sum of the values of all breakdown entries of a bucket. -/
def breakdownSum (bd : List (String × BreakEntry)) : ℚ :=
  (bd.map fun kv => kv.2.value).sum

/-- The conservation property of one output point: the total equals the sum
of the three category sums and equals the sum of the breakdown values. -/
def bucketConserved (b : Bucket) : Prop :=
  b.total = b.crypto + b.stocks + b.gold ∧ b.total = breakdownSum b.breakdown

/-- Structural well-formedness of the aggregation map: distinct keys, each
bucket carries its key as timestamp and the derived calendar date, and each
key is a snapped bucket timestamp. -/
def bmapWellFormed (days : Int) (tz : Ms) (m : BMap) : Prop :=
  keysNodup m
  ∧ ∀ kb ∈ m, kb.2.timestamp = kb.1 ∧ kb.2.date = dateOfTs kb.1
      ∧ ∃ ts : Ms, kb.1 = bucketTs days tz ts

/-- Environment with no holdings and an empty recorded-snapshot store. -/
def envEmpty : Env :=
  ⟨[], [], fun _ _ => .error .networkError, fun _ => .notOk, fun _ => 0, 0, 0⟩

/-- Environment of the idempotence witness: one tracked holding and a
provider that always fails, so any fetch would be visible in the result. -/
def envC7 : Env :=
  ⟨[⟨"c1", "Bitcoin", .crypto, some "BTC", some "btc", 2, some 990, some 45⟩],
    [], fun _ _ => .error .networkError, fun _ => .notOk, fun _ => 0,
    1000 * msPerDay, 0⟩

/-- Warm cache of the idempotence witness: the single holding series for
the computed thirty-day window, written one second before the clock. -/
def stC7 : St :=
  ⟨[("btc_30", ⟨[⟨995, 995 * msPerDay, 50⟩], 1000 * msPerDay - 1000, true⟩)], 0⟩

/-- Heap of the deep-copy witness: the assets cache root at address 0 is a
one-element array whose element is an object with one numeric field. -/
def heapC10 : Heap := fun a =>
  if a = 0 then some (.arr [1])
  else if a = 1 then some (.obj ["balance"] [2])
  else if a = 2 then some (.scalar (.num 5))
  else none

/-! Shared lemmas about association maps under filtering. -/

theorem mapLookup_insert_self {κ β : Type} [DecidableEq κ]
    (m : List (κ × β)) (k : κ) (v : β) :
    mapLookup (mapInsert m k v) k = some v := by
  induction m with
  | nil => simp [mapInsert, mapLookup]
  | cons hd tl ih =>
      obtain ⟨k', w⟩ := hd
      by_cases hk : k' = k
      · simp [mapInsert, hk, mapLookup]
      · simp [mapInsert, hk, mapLookup, ih]

theorem mapLookup_insert_ne {κ β : Type} [DecidableEq κ]
    (m : List (κ × β)) (k k' : κ) (v : β) (h : k' ≠ k) :
    mapLookup (mapInsert m k v) k' = mapLookup m k' := by
  have hne : ¬ k = k' := fun he => h he.symm
  induction m with
  | nil => simp [mapInsert, mapLookup, hne]
  | cons hd tl ih =>
      obtain ⟨k0, w⟩ := hd
      by_cases hk : k0 = k
      · subst hk
        simp [mapInsert, mapLookup, hne]
      · by_cases hk' : k0 = k'
        · subst hk'
          simp [mapInsert, hk, mapLookup, h]
        · simp [mapInsert, hk, mapLookup, hk', ih]

theorem mem_mapInsert {κ β : Type} [DecidableEq κ]
    (m : List (κ × β)) (k : κ) (v : β) (p : κ × β)
    (hp : p ∈ mapInsert m k v) : p = (k, v) ∨ p ∈ m := by
  induction m with
  | nil => simpa [mapInsert] using hp
  | cons hd tl ih =>
      obtain ⟨k0, w⟩ := hd
      by_cases hk : k0 = k
      · simp [mapInsert, hk] at hp
        rcases hp with h | h
        · exact Or.inl (by simp [h])
        · exact Or.inr (List.mem_cons_of_mem _ h)
      · simp [mapInsert, hk] at hp
        rcases hp with h | h
        · exact Or.inr (by simp [h])
        · rcases ih h with h' | h'
          · exact Or.inl h'
          · exact Or.inr (List.mem_cons_of_mem _ h')

theorem keysNodup_mapInsert {κ β : Type} [DecidableEq κ]
    (m : List (κ × β)) (k : κ) (v : β) (h : keysNodup m) :
    keysNodup (mapInsert m k v) := by
  induction m with
  | nil => simp [mapInsert, keysNodup]
  | cons hd tl ih =>
      obtain ⟨k0, w⟩ := hd
      simp [keysNodup] at h
      by_cases hk : k0 = k
      · subst hk
        simpa [mapInsert, keysNodup] using h
      · have htl := ih h.2
        simp [mapInsert, hk, keysNodup] at htl ⊢
        refine ⟨?_, htl⟩
        intro b hab
        have : (k0, b) = (k, v) ∨ (k0, b) ∈ tl := mem_mapInsert tl k v (k0, b) hab
        rcases this with h' | h'
        · exact hk (congrArg Prod.fst h')
        · exact (h.1 b) h'

theorem mem_of_mapLookup {κ β : Type} [DecidableEq κ]
    (m : List (κ × β)) (k : κ) (v : β) (h : mapLookup m k = some v) :
    (k, v) ∈ m := by
  induction m with
  | nil => simp [mapLookup] at h
  | cons hd tl ih =>
      obtain ⟨k0, w⟩ := hd
      by_cases hk : k0 = k
      · subst hk
        simp [mapLookup] at h
        simp [h]
      · simp [mapLookup, hk] at h
        exact List.mem_cons_of_mem _ (ih h)

theorem mapLookup_of_mem {κ β : Type} [DecidableEq κ]
    (m : List (κ × β)) (k : κ) (v : β) (hm : (k, v) ∈ m) (hnd : keysNodup m) :
    mapLookup m k = some v := by
  induction m with
  | nil => simp at hm
  | cons hd tl ih =>
      obtain ⟨k0, w⟩ := hd
      simp [keysNodup] at hnd
      rcases List.mem_cons.mp hm with h | h
      · cases h
        simp [mapLookup]
      · have hk : k0 ≠ k := by
          intro he
          subst he
          exact (hnd.1 v) h
        simp [mapLookup, hk]
        exact ih h hnd.2


theorem mapLookup_eq_none_of_not_mem {κ β : Type} [DecidableEq κ]
    (m : List (κ × β)) (k : κ) (h : k ∉ m.map Prod.fst) :
    mapLookup m k = none := by
  induction m with
  | nil => rfl
  | cons hd tl ih =>
      obtain ⟨k0, w⟩ := hd
      have hk : ¬ k0 = k := fun he => h (by simp [he])
      have h2 : k ∉ tl.map Prod.fst := fun hm => h (by simp [hm])
      simp [mapLookup, hk, ih h2]

theorem keysNodup_filter {κ β : Type} (m : List (κ × β)) (f : κ × β → Bool)
    (h : keysNodup m) : keysNodup (m.filter f) := by
  unfold keysNodup at h ⊢
  have hsub : ((m.filter f).map Prod.fst).Sublist (m.map Prod.fst) :=
    (List.filter_sublist m).map Prod.fst
  exact h.sublist hsub

theorem mapLookup_filter {κ β : Type} [DecidableEq κ]
    (m : List (κ × β)) (k : κ) (f : κ × β → Bool) (hnd : keysNodup m) :
    mapLookup (m.filter f) k
      = (mapLookup m k).bind fun v => if f (k, v) then some v else none := by
  induction m with
  | nil => rfl
  | cons hd tl ih =>
      obtain ⟨k0, w⟩ := hd
      simp [keysNodup] at hnd
      have htl := ih hnd.2
      by_cases hk : k0 = k
      · subst hk
        have hnone : mapLookup (tl.filter f) k0 = none := by
          apply mapLookup_eq_none_of_not_mem
          intro hmem
          obtain ⟨x, hx, hfst⟩ := List.mem_map.mp hmem
          have hxtl : x ∈ tl := (List.filter_sublist tl).subset hx
          have hxtl' : (k0, x.2) ∈ tl := by
            rw [← hfst]
            simpa using hxtl
          exact (hnd.1 x.2) hxtl'
        by_cases hf : f (k0, w)
        · simp [List.filter, hf, mapLookup]
        · simp [List.filter, hf, mapLookup, hnone]
      · by_cases hf : f (k0, w)
        · simp [List.filter, hf, mapLookup, hk, htl]
        · simp [List.filter, hf, mapLookup, hk, htl]

/-- C8: a cache entry written at time T under key k is returned by a read
at time t exactly when t minus T is strictly below the TTL of the trailing
period component of the key, and is treated as absent, identically to a
miss, from the moment its age reaches that TTL; the TTL is five minutes
when the trailing component is the string 1 or 24h, thirty minutes when it
is 7 or 1w, and twenty-four hours otherwise. The store is assumed to have
distinct keys, as any JSON object store does, and the write time is
nonzero, as any real clock reading is. -/
theorem cache_ttl_read_after_write (store : CacheStore) (k : String)
    (data : List PricePoint) (T t : Ms) (hnd : keysNodup store) (hT : T ≠ 0) :
    (mapLookup (getCache t (setCache T store k data)) k
      = if t - T < cacheMaxAge k then some ⟨data, T, true⟩ else none)
    ∧ ((lastPart k = "1" ∨ lastPart k = "24h") → cacheMaxAge k = 5 * 60 * 1000)
    ∧ ((lastPart k = "7" ∨ lastPart k = "1w") → cacheMaxAge k = 30 * 60 * 1000)
    ∧ (lastPart k ≠ "1" → lastPart k ≠ "24h" → lastPart k ≠ "7" →
        lastPart k ≠ "1w" → cacheMaxAge k = 24 * 60 * 60 * 1000) := by
  refine ⟨?_, ?_, ?_, ?_⟩
  · have hnd1 : keysNodup (getCache T store) := keysNodup_filter store _ hnd
    have hnd2 : keysNodup (setCache T store k data) :=
      keysNodup_mapInsert _ k _ hnd1
    unfold getCache
    rw [mapLookup_filter _ _ _ hnd2]
    unfold setCache
    rw [mapLookup_insert_self]
    simp [hT]
  · intro hc
    unfold cacheMaxAge
    rcases hc with hc | hc <;> simp [hc]
  · intro hc
    unfold cacheMaxAge
    rcases hc with hc | hc <;> simp [hc]
  · intro h1 h2 h3 h4
    unfold cacheMaxAge
    simp [h1, h2, h3, h4]

/-- Witness for C8: a five-minute entry written at time 1 is present at a
read 299999 milliseconds later and absent at a read 300000 milliseconds
later. -/
theorem cache_ttl_read_after_write_witness :
    mapLookup (getCache 300000 (setCache 1 [] "bitcoin_1" [])) "bitcoin_1"
        = some ⟨[], 1, true⟩
    ∧ mapLookup (getCache 300001 (setCache 1 [] "bitcoin_1" [])) "bitcoin_1"
        = none := by
  constructor
  · have h := (cache_ttl_read_after_write [] "bitcoin_1" [] 1 300000
      (by simp [keysNodup]) (by decide)).1
    rw [h]
    norm_num
    decide
  · have h := (cache_ttl_read_after_write [] "bitcoin_1" [] 1 300001
      (by simp [keysNodup]) (by decide)).1
    rw [h]
    norm_num
    decide

/-- C9 amended: in the current app module the settlement of each promise of
a released batch is exactly the settlement of its own task outcome, so a
sibling rejection never touches a fulfilled task; the claim fails for the
legacy rate limiter of the js app module, see the counterexample. -/
theorem rate_limiter_batch_isolation {ε α : Type} (batch : List (Except ε α))
    (i : Nat) :
    (processQueueSettle batch).get? i = (batch.get? i).map settledOf := by
  induction batch generalizing i with
  | nil => simp [processQueueSettle, promiseAllSettled]
  | cons hd tl ih =>
      cases i with
      | zero => cases hd <;> rfl
      | succ j =>
          have := ih j
          cases hd <;>
            simpa [processQueueSettle, promiseAllSettled, List.zip] using this

/-- Counterexample for C9 as stated: in the legacy rate limiter of the js
app module a batch of one fulfilled and one rejected task settles both
promises as rejected with the sibling reason, so the fulfilled task does
not receive its own value; the current module settles each task from its
own outcome. -/
theorem rate_limiter_batch_isolation_counterexample :
    processQueueSettleLegacy [(.ok 1 : Except String ℚ), .error "boom"]
      = [.rejected "boom", .rejected "boom"]
    ∧ processQueueSettle [(.ok 1 : Except String ℚ), .error "boom"]
      = [.fulfilled 1, .rejected "boom"] :=
  ⟨rfl, rfl⟩

/-- C4, code bug: on a cache miss with the provider rejecting with a rate
limit, fetchHistoricalPrices rejects with that error instead of resolving
with the synthetic fallback, because the source returns the rate-limited
task promise from inside the try block without an await, so the catch
block never fires; the fallback it was written to run, createFallbackHistory,
would have produced a 31-point series flat at the spot price, and the
awaited reading of the same source resolves with that series and leaves
the cache unwritten. -/
theorem fetchHistoricalPrices_rejects_on_rate_limit :
    (fetchHistoricalPrices envRateLimited ⟨[], 0⟩ "bitcoin" (.n 30)).1
        = .error .rateLimit
    ∧ ((createFallbackHistory envRateLimited 0 "bitcoin" (.n 30)).1.toOption.map
        List.length) = some 31
    ∧ ((createFallbackHistory envRateLimited 0 "bitcoin" (.n 30)).1.toOption.map
        fun l => l.map PricePoint.price) = some (List.replicate 31 100)
    ∧ ((fetchHistoricalPricesAwaited envRateLimited ⟨[], 0⟩ "bitcoin" (.n 30)).1.toOption.map
        List.length) = some 31
    ∧ (fetchHistoricalPricesAwaited envRateLimited ⟨[], 0⟩ "bitcoin" (.n 30)).2.cache
        = [] := by
  refine ⟨rfl, by decide, ?_, by decide, rfl⟩
  simp [createFallbackHistory, envRateLimited, DaysArg.isAllMode,
    List.range_succ, Except.toOption, List.replicate]

/-- Counterexample for C5 as stated: with a thirty-day window ending on day
100 and a holding whose purchase date is day 200, which lies outside the
requested window, a synthesized point at the purchase date is still
inserted, because the source checks only the lower bound of the window; the
fetched in-window point on day 95 is dropped by the long-term purchase
filter, so the resulting series is exactly the synthesized future point. -/
theorem purchase_point_synthesis_counterexample :
    (processAsset nowC5 startC5 (.n 30) assetFuture histC5).priceHistory
        = [⟨200, 200 * msPerDay, 45⟩]
    ∧ nowC5 < 200 * msPerDay := by
  constructor
  · decide
  · decide

/-- C5 amended: when the filtered series has no point on the purchase day,
the buy price is truthy and the window is in all mode or the purchase
midnight is on or after the window start, exactly one synthesized point at
the purchase day priced at the buy price is prepended; when the window is
finite and the purchase midnight lies before the window start, the series
is left as filtered and contains no point dated at the purchase day at
all. The amendment replaces the claim condition that the purchase date
lies inside the window by the condition the code tests, namely that it is
not before the window start; a purchase date after the window end still
receives a point, as the counterexample shows. -/
theorem purchase_point_synthesis (now startTs : Ms) (d : DaysArg) (a : Asset)
    (hist : List PricePoint) :
    (((filterRelevant now startTs d (a.purchaseDay.getD 0) hist).any
        fun p => p.date == a.purchaseDay.getD 0) = false →
      buyPriceTruthy a = true →
      (d.isAllMode = true ∨ startTs ≤ (a.purchaseDay.getD 0) * msPerDay) →
      (processAsset now startTs d a hist).priceHistory
          = ⟨a.purchaseDay.getD 0, (a.purchaseDay.getD 0) * msPerDay,
              a.buyPrice.getD 0⟩
            :: filterRelevant now startTs d (a.purchaseDay.getD 0) hist
      ∧ ((processAsset now startTs d a hist).priceHistory.countP
          fun p => p.date == a.purchaseDay.getD 0) = 1)
    ∧ (d.isAllMode = false →
      (a.purchaseDay.getD 0) * msPerDay < startTs →
      (processAsset now startTs d a hist).priceHistory
          = filterRelevant now startTs d (a.purchaseDay.getD 0) hist
      ∧ ∀ p ∈ (processAsset now startTs d a hist).priceHistory,
          p.date ≠ a.purchaseDay.getD 0) := by
  constructor
  · intro hnp hbuy hwin
    have hcond : ((!(filterRelevant now startTs d (a.purchaseDay.getD 0)
        hist).any fun p => p.date == a.purchaseDay.getD 0)
        && buyPriceTruthy a
        && (d.isAllMode
            || decide (startTs ≤ (a.purchaseDay.getD 0) * msPerDay))) = true := by
      rcases hwin with h | h <;> simp [hnp, hbuy, h]
    constructor
    · simp only [processAsset, hcond, if_true]
    · simp only [processAsset, hcond, if_true]
      have hzero : ((filterRelevant now startTs d (a.purchaseDay.getD 0)
          hist).countP fun p => p.date == a.purchaseDay.getD 0) = 0 := by
        rw [List.countP_eq_zero]
        intro p hp
        have h2 := List.any_eq_false.mp hnp p hp
        simpa using h2
      rw [List.countP_cons_of_pos]
      · simp [hzero]
      · simp
  · intro hfin hlt
    have hcond : ((!(filterRelevant now startTs d (a.purchaseDay.getD 0)
        hist).any fun p => p.date == a.purchaseDay.getD 0)
        && buyPriceTruthy a
        && (d.isAllMode
            || decide (startTs ≤ (a.purchaseDay.getD 0) * msPerDay))) = false := by
      have hnle : ¬ (startTs ≤ (a.purchaseDay.getD 0) * msPerDay) := not_le.mpr hlt
      simp [hfin, hnle]
    constructor
    · simp only [processAsset, hcond, if_false, Bool.false_eq_true]
    · intro p hp he
      have hp' : p ∈ filterRelevant now startTs d (a.purchaseDay.getD 0) hist := by
        simpa only [processAsset, hcond, if_false, Bool.false_eq_true] using hp
      have hpass := (List.mem_filter.mp hp').2
      rw [he] at hpass
      simp at hpass
      omega

/-- Witness for the amended C5: a holding purchased on day 95 with no
fetched point on that day gets exactly one synthesized purchase-day point,
both under a finite thirty-day window whose start lies before the purchase
day and under the all-time window. -/
theorem purchase_point_synthesis_witness :
    ((processAsset nowC5 startC5 (.n 30) assetW histW).priceHistory.countP
        fun p => p.date == (95 : Int)) = 1
    ∧ ((processAsset nowC5 startC5 DaysArg.max assetW histW).priceHistory.countP
        fun p => p.date == (95 : Int)) = 1 := by
  constructor
  · have h := (purchase_point_synthesis nowC5 startC5 (.n 30) assetW histW).1
      (by decide) (by decide) (Or.inr (by decide))
    simpa using h.2
  · have h := (purchase_point_synthesis nowC5 startC5 DaysArg.max assetW histW).1
      (by decide) (by decide) (Or.inl (by decide))
    simpa using h.2

/-! Category field lemmas shared by the aggregation proofs. -/

theorem catAdd_total (b : Bucket) (c : Category) (q : ℚ) :
    (catAdd b c q).total = b.total := by
  cases c <;> rfl

theorem catAdd_breakdown (b : Bucket) (c : Category) (q : ℚ) :
    (catAdd b c q).breakdown = b.breakdown := by
  cases c <;> rfl

theorem catAdd_timestamp (b : Bucket) (c : Category) (q : ℚ) :
    (catAdd b c q).timestamp = b.timestamp := by
  cases c <;> rfl

theorem catAdd_date (b : Bucket) (c : Category) (q : ℚ) :
    (catAdd b c q).date = b.date := by
  cases c <;> rfl

theorem catGet_catAdd_self (b : Bucket) (c : Category) (q : ℚ) :
    catGet (catAdd b c q) c = catGet b c + q := by
  cases c <;> rfl

theorem catSum_catAdd (b : Bucket) (c : Category) (q : ℚ) :
    (catAdd b c q).crypto + (catAdd b c q).stocks + (catAdd b c q).gold
      = b.crypto + b.stocks + b.gold + q := by
  cases c <;> simp [catAdd] <;> ring

/-- C1: whenever the aggregation processes a price point of a holding whose
calendar day strictly precedes the holding purchase day, the bucket the
point lands in records a contribution of exactly zero for that holding: the
breakdown entry it writes has value zero, and the new bucket total and the
holding category sum both equal their previous value with the previous
contribution of that holding removed and zero added, never the nominal
price times balance. The aggregation of the accurate path is the fold of
applyPoint over every point of every holding, so this covers every bucket
of a reconstruction, long-term windows included; no window-length
hypothesis is needed because the source zero-fills unconditionally. -/
theorem aggregate_prepurchase_contribution_zero (days : Int) (tz : Ms)
    (m : BMap) (r : ResultEntry) (p : PricePoint)
    (hpre : p.date < r.purchaseDay) :
    ∃ b, mapLookup (applyPoint days tz m r p) (bucketTs days tz p.timestamp)
          = some b
      ∧ mapLookup b.breakdown r.asset.id
          = some ⟨0, p.price, r.balance, r.asset.name, some r.purchaseDay⟩
      ∧ b.total
          = ((mapLookup m (bucketTs days tz p.timestamp)).getD
              (newBucket (bucketTs days tz p.timestamp))).total
            - prevContrib ((mapLookup m (bucketTs days tz p.timestamp)).getD
              (newBucket (bucketTs days tz p.timestamp))) r.asset.id
      ∧ catGet b r.asset.category
          = catGet ((mapLookup m (bucketTs days tz p.timestamp)).getD
              (newBucket (bucketTs days tz p.timestamp))) r.asset.category
            - prevContrib ((mapLookup m (bucketTs days tz p.timestamp)).getD
              (newBucket (bucketTs days tz p.timestamp))) r.asset.id := by
  unfold applyPoint updateBucket
  set key := bucketTs days tz p.timestamp with hkey
  set b0 := (mapLookup m key).getD (newBucket key) with hb0
  have hval : (if p.date < r.purchaseDay then (0 : ℚ) else p.price * r.balance) = 0 :=
    if_pos hpre
  rw [hval]
  cases hold : mapLookup b0.breakdown r.asset.id with
  | none =>
      refine ⟨_, mapLookup_insert_self _ _ _, ?_, ?_, ?_⟩
      · simp [catAdd_breakdown, mapLookup_insert_self]
      · simp [catAdd_total, prevContrib, hold]
      · cases hcat : r.asset.category <;>
          simp [catGet, catAdd, prevContrib, hold, hcat]
  | some old =>
      refine ⟨_, mapLookup_insert_self _ _ _, ?_, ?_, ?_⟩
      · simp [catAdd_breakdown, mapLookup_insert_self]
      · simp [catAdd_total, prevContrib, hold]
      · cases hcat : r.asset.category <;>
          simp [catGet, catAdd, prevContrib, hold, hcat] <;>
          ring

/-- Witness for C1: the pre-purchase point of the concrete holding, day 5
against a purchase on day 10, lands in its daily bucket with a breakdown
value of zero and a bucket total of zero. -/
theorem aggregate_prepurchase_contribution_zero_witness :
    ((mapLookup (applyPoint 30 0 [] rAgg ⟨5, 5 * msPerDay, 50⟩)
        (bucketTs 30 0 (5 * msPerDay))).map
      fun b => (mapLookup b.breakdown "a1", b.total))
      = some (some ⟨0, 50, 1, "Bitcoin", some 10⟩, 0) := by
  obtain ⟨b, hb, hbd, htot, _⟩ :=
    aggregate_prepurchase_contribution_zero 30 0 [] rAgg
      ⟨5, 5 * msPerDay, 50⟩ (by decide)
  rw [hb]
  simp only [Option.map_some']
  simp [rAgg, prevContrib, newBucket, mapLookup] at hbd htot
  simp [hbd, htot]

/-! Lemmas for the conservation invariant. -/

theorem breakdownSum_mapInsert (bd : List (String × BreakEntry)) (id : String)
    (e : BreakEntry) :
    breakdownSum (mapInsert bd id e)
      = breakdownSum bd
        - (match mapLookup bd id with | some old => old.value | none => 0)
        + e.value := by
  induction bd with
  | nil => simp [mapInsert, breakdownSum, mapLookup]
  | cons hd tl ih =>
      obtain ⟨k0, w⟩ := hd
      by_cases hk : k0 = id
      · subst hk
        simp [mapInsert, breakdownSum, mapLookup]
        ring
      · simp [mapInsert, hk, breakdownSum, mapLookup] at ih ⊢
        rw [ih]
        ring

theorem applyPoint_conserved (days : Int) (tz : Ms) (m : BMap)
    (r : ResultEntry) (p : PricePoint)
    (hinv : ∀ kb ∈ m, bucketConserved kb.2) :
    ∀ kb ∈ applyPoint days tz m r p, bucketConserved kb.2 := by
  intro kb hkb
  have hb0 : bucketConserved ((mapLookup m (bucketTs days tz p.timestamp)).getD
      (newBucket (bucketTs days tz p.timestamp))) := by
    cases hl : mapLookup m (bucketTs days tz p.timestamp) with
    | none => exact ⟨by simp [newBucket], by simp [newBucket, breakdownSum]⟩
    | some b => exact hinv (_, b) (mem_of_mapLookup _ _ _ hl)
  rcases mem_mapInsert _ _ _ _ (by simpa [applyPoint] using hkb) with heq | hmem
  · obtain ⟨h1, h2⟩ := hb0
    subst heq
    set b0 := (mapLookup m (bucketTs days tz p.timestamp)).getD
      (newBucket (bucketTs days tz p.timestamp)) with hb0def
    constructor
    · cases hold : mapLookup b0.breakdown r.asset.id <;>
        cases hcat : r.asset.category <;>
        simp [updateBucket, hold, catAdd, hcat] <;> rw [h1] <;> ring
    · cases hold : mapLookup b0.breakdown r.asset.id <;>
        cases hcat : r.asset.category <;>
        simp [updateBucket, hold, catAdd, hcat, breakdownSum_mapInsert] <;> rw [h2] <;> ring
  · exact hinv kb hmem

theorem applyPoints_conserved (days : Int) (tz : Ms) (r : ResultEntry) :
    ∀ (ps : List PricePoint) (m : BMap), (∀ kb ∈ m, bucketConserved kb.2) →
      ∀ kb ∈ ps.foldl (fun m' p => applyPoint days tz m' r p) m,
        bucketConserved kb.2 := by
  intro ps
  induction ps with
  | nil => intro m hm; simpa using hm
  | cons p rest ih =>
      intro m hm
      exact ih _ (applyPoint_conserved days tz m r p hm)

theorem mem_insertByTs (x p : Bucket) (l : List Bucket) :
    p ∈ insertByTs x l ↔ p = x ∨ p ∈ l := by
  induction l with
  | nil => simp [insertByTs]
  | cons q qs ih =>
      by_cases hlt : x.timestamp < q.timestamp
      · simp [insertByTs, hlt]
      · simp [insertByTs, hlt, ih]
        tauto

theorem mem_sortByTs (p : Bucket) (l : List Bucket) :
    p ∈ sortByTs l ↔ p ∈ l := by
  induction l with
  | nil => simp [sortByTs]
  | cons q qs ih =>
      simp only [sortByTs, List.foldr] at ih ⊢
      rw [mem_insertByTs, ih]
      simp

/-- C2: every point produced by the aggregation step satisfies
conservation: its total equals the sum of the crypto, stocks and gold
category sums and equals the sum of all breakdown entry values. The
invariant survives several raw points of one holding landing in the same
bucket because the step subtracts the previously recorded contribution of
that holding from the total and its category before adding the new one;
the proof covers arbitrary result lists, including such collisions. -/
theorem aggregate_conservation (results : List ResultEntry) (startTs : Ms)
    (days : Int) (tz : Ms) (b : Bucket)
    (hb : b ∈ aggregatedHistory results startTs days tz) :
    b.total = b.crypto + b.stocks + b.gold
    ∧ b.total = breakdownSum b.breakdown := by
  have hmain : ∀ (rs : List ResultEntry) (m : BMap),
      (∀ kb ∈ m, bucketConserved kb.2) →
      ∀ kb ∈ rs.foldl (fun m' r =>
          if r.priceHistory.isEmpty then m'
          else r.priceHistory.foldl (fun m'' q => applyPoint days tz m'' r q) m') m,
        bucketConserved kb.2 := by
    intro rs
    induction rs with
    | nil => intro m hm; simpa using hm
    | cons r rest ih =>
        intro m hm
        rw [List.foldl_cons]
        by_cases he : r.priceHistory.isEmpty = true
        · rw [if_pos he]
          exact ih m hm
        · rw [if_neg he]
          exact ih _ (applyPoints_conserved days tz r r.priceHistory m hm)
  have hmem : b ∈ (aggregatePortfolioHistory results startTs days tz).map Prod.snd := by
    rw [← mem_sortByTs]
    exact hb
  obtain ⟨kb, hkb, rfl⟩ := List.mem_map.mp hmem
  exact hmain results [] (by simp) kb hkb

/-- Witness for C2: the concrete holding with two same-bucket points
yields output points that all satisfy conservation; the day-12 bucket ends
at total 61 after the second point replaced the first. -/
theorem aggregate_conservation_witness :
    ((aggregatedHistory [rAgg] 0 30 0).map fun b => b.total) = [0, 61]
    ∧ ((aggregatedHistory [rAgg] 0 30 0).headD (newBucket 0)).total
        = ((aggregatedHistory [rAgg] 0 30 0).headD (newBucket 0)).crypto
          + ((aggregatedHistory [rAgg] 0 30 0).headD (newBucket 0)).stocks
          + ((aggregatedHistory [rAgg] 0 30 0).headD (newBucket 0)).gold := by
  have e1 : Int.fdiv 432000000 86400000 = 5 := by decide
  have e2 : Int.fdiv 1036800000 86400000 = 12 := by decide
  have e3 : Int.fdiv 1044000000 86400000 = 12 := by decide
  have heval : aggregatedHistory [rAgg] 0 30 0
      = [⟨5, 5 * msPerDay, 0, 0, 0, 0,
            [("a1", ⟨0, 50, 1, "Bitcoin", some 10⟩)], true⟩,
          ⟨12, 12 * msPerDay, 61, 61, 0, 0,
            [("a1", ⟨61, 61, 1, "Bitcoin", some 10⟩)], true⟩] := by
    norm_num [aggregatedHistory, aggregatePortfolioHistory, applyPoint, updateBucket,
      bucketTs, mapLookup, mapInsert, newBucket, catAdd, sortByTs,
      insertByTs, rAgg, msPerDay, dateOfTs, prevContrib, e1, e2, e3]
    decide
  constructor
  · rw [heval]
    norm_num
  · have h := aggregate_conservation [rAgg] 0 30 0
      ((aggregatedHistory [rAgg] 0 30 0).headD (newBucket 0))
      (by rw [heval]; simp)
    exact h.1

/-! Lemmas for the grid-alignment properties. -/

theorem updateBucket_timestamp (b : Bucket) (r : ResultEntry) (p : PricePoint) :
    (updateBucket b r p).timestamp = b.timestamp := by
  cases hold : mapLookup b.breakdown r.asset.id <;>
    cases hcat : r.asset.category <;>
    simp [updateBucket, hold, hcat, catAdd]

theorem updateBucket_date (b : Bucket) (r : ResultEntry) (p : PricePoint) :
    (updateBucket b r p).date = b.date := by
  cases hold : mapLookup b.breakdown r.asset.id <;>
    cases hcat : r.asset.category <;>
    simp [updateBucket, hold, hcat, catAdd]

theorem applyPoint_wellFormed (days : Int) (tz : Ms) (m : BMap)
    (r : ResultEntry) (p : PricePoint) (h : bmapWellFormed days tz m) :
    bmapWellFormed days tz (applyPoint days tz m r p) := by
  obtain ⟨hnd, hmem⟩ := h
  refine ⟨by simpa [applyPoint] using keysNodup_mapInsert _ _ _ hnd, ?_⟩
  intro kb hkb
  rcases mem_mapInsert _ _ _ _ (by simpa [applyPoint] using hkb) with heq | hmm
  · have hb0 : ((mapLookup m (bucketTs days tz p.timestamp)).getD
          (newBucket (bucketTs days tz p.timestamp))).timestamp
        = bucketTs days tz p.timestamp
      ∧ ((mapLookup m (bucketTs days tz p.timestamp)).getD
          (newBucket (bucketTs days tz p.timestamp))).date
        = dateOfTs (bucketTs days tz p.timestamp) := by
      cases hl : mapLookup m (bucketTs days tz p.timestamp) with
      | none => simp [newBucket]
      | some b =>
          have hp := hmem (_, b) (mem_of_mapLookup _ _ _ hl)
          exact ⟨by simpa using hp.1, by simpa using hp.2.1⟩
    subst heq
    exact ⟨by simp [updateBucket_timestamp, hb0.1],
      by simp [updateBucket_date, hb0.2], p.timestamp, rfl⟩
  · exact hmem kb hmm

theorem aggregate_wellFormed (results : List ResultEntry) (startTs : Ms)
    (days : Int) (tz : Ms) :
    bmapWellFormed days tz (aggregatePortfolioHistory results startTs days tz) := by
  have hstep : ∀ (ps : List PricePoint) (r : ResultEntry) (m : BMap),
      bmapWellFormed days tz m →
      bmapWellFormed days tz
        (ps.foldl (fun m' q => applyPoint days tz m' r q) m) := by
    intro ps
    induction ps with
    | nil => intro r m hm; simpa using hm
    | cons q rest ih =>
        intro r m hm
        exact ih r _ (applyPoint_wellFormed days tz m r q hm)
  have hmain : ∀ (rs : List ResultEntry) (m : BMap),
      bmapWellFormed days tz m →
      bmapWellFormed days tz (rs.foldl (fun m' r =>
        if r.priceHistory.isEmpty then m'
        else r.priceHistory.foldl (fun m'' q => applyPoint days tz m'' r q) m') m) := by
    intro rs
    induction rs with
    | nil => intro m hm; simpa using hm
    | cons r rest ih =>
        intro m hm
        rw [List.foldl_cons]
        by_cases he : r.priceHistory.isEmpty = true
        · rw [if_pos he]
          exact ih m hm
        · rw [if_neg he]
          exact ih _ (hstep r.priceHistory r m hm)
  exact hmain results [] ⟨by simp [keysNodup], by simp⟩

theorem bucketTs_hour (days : Int) (tz ts : Ms) (h : days ≤ 1) :
    bucketTs days tz ts % msPerHour = 0 := by
  unfold bucketTs
  rw [if_pos h]
  exact Int.mul_emod_left _ _

theorem bucketTs_sixHours (days : Int) (tz ts : Ms) (h1 : ¬ days ≤ 1)
    (h2 : days ≤ 7) : bucketTs days tz ts % msPerSixHours = 0 := by
  unfold bucketTs
  rw [if_neg h1, if_pos h2]
  exact Int.mul_emod_left _ _

theorem bucketTs_localMidnight (days : Int) (tz ts : Ms) (h : ¬ days ≤ 7) :
    (bucketTs days tz ts + tz) % msPerDay = 0 := by
  unfold bucketTs
  rw [if_neg (by omega : ¬ days ≤ 1), if_neg h, sub_add_cancel]
  exact Int.mul_emod_left _ _

theorem dateOf_localMidnight (c : Int) (tz : Ms) :
    dateOfTs (c * msPerDay - tz) = (-tz) / msPerDay + c := by
  unfold dateOfTs msPerDay
  rw [Int.fdiv_eq_ediv _ (by norm_num)]
  rw [show c * (86400000 : Int) - tz = -tz + c * 86400000 by ring]
  exact Int.add_mul_ediv_right _ _ (by norm_num)

/-- C6 amended: an aggregated reconstruction over a window of at most one
day has every output timestamp an exact multiple of 3600000 milliseconds,
over a window of more than one and at most seven days an exact multiple of
21600000 milliseconds; over a window of more than seven days every output
timestamp is the midnight of the runtime timezone, that is, adding the
timezone offset east of UTC gives an exact multiple of 86400000, which is
midnight UTC exactly when that offset is zero, and no two output points
share the same calendar date. The claim as stated asserts midnight UTC
unconditionally and fails in any timezone other than UTC, see the
counterexample. -/
theorem grid_alignment (results : List ResultEntry) (startTs : Ms)
    (days : Int) (tz : Ms) (b b' : Bucket)
    (hb : b ∈ aggregatedHistory results startTs days tz)
    (hb' : b' ∈ aggregatedHistory results startTs days tz) :
    (days ≤ 1 → b.timestamp % msPerHour = 0)
    ∧ (1 < days → days ≤ 7 → b.timestamp % msPerSixHours = 0)
    ∧ (7 < days → (b.timestamp + tz) % msPerDay = 0)
    ∧ (7 < days → tz = 0 → b.timestamp % msPerDay = 0)
    ∧ (7 < days → b.date = b'.date → b = b') := by
  obtain ⟨hnd, hmem⟩ := aggregate_wellFormed results startTs days tz
  have hmb : b ∈ (aggregatePortfolioHistory results startTs days tz).map Prod.snd := by
    rw [← mem_sortByTs]; exact hb
  have hmb' : b' ∈ (aggregatePortfolioHistory results startTs days tz).map Prod.snd := by
    rw [← mem_sortByTs]; exact hb'
  obtain ⟨kb, hkb, rfl⟩ := List.mem_map.mp hmb
  obtain ⟨kb', hkb', rfl⟩ := List.mem_map.mp hmb'
  obtain ⟨hts, hdate, ts, hkey⟩ := hmem kb hkb
  obtain ⟨hts', hdate', ts', hkey'⟩ := hmem kb' hkb'
  refine ⟨?_, ?_, ?_, ?_, ?_⟩
  · intro h1
    rw [hts, hkey]
    exact bucketTs_hour days tz ts h1
  · intro h1 h7
    rw [hts, hkey]
    exact bucketTs_sixHours days tz ts (by omega) h7
  · intro h7
    rw [hts, hkey]
    exact bucketTs_localMidnight days tz ts (by omega)
  · intro h7 htz
    have := bucketTs_localMidnight days tz ts (by omega : ¬ days ≤ 7)
    rw [hts, hkey]
    simpa [htz] using this
  · intro h7 hdd
    have hform : ∀ t : Ms, bucketTs days tz t
        = ((t + tz).fdiv msPerDay) * msPerDay - tz := by
      intro t
      unfold bucketTs
      rw [if_neg (by omega : ¬ days ≤ 1), if_neg (by omega : ¬ days ≤ 7)]
    have hd1 : kb.2.date = (-tz) / msPerDay + (ts + tz).fdiv msPerDay := by
      rw [hdate, hkey, hform, dateOf_localMidnight]
    have hd2 : kb'.2.date = (-tz) / msPerDay + (ts' + tz).fdiv msPerDay := by
      rw [hdate', hkey', hform, dateOf_localMidnight]
    have hceq : (ts + tz).fdiv msPerDay = (ts' + tz).fdiv msPerDay := by
      have := hd1 ▸ hd2 ▸ hdd
      omega
    have hkk : kb.1 = kb'.1 := by
      rw [hkey, hkey', hform, hform, hceq]
    have hlook1 : mapLookup (aggregatePortfolioHistory results startTs days tz) kb.1
        = some kb.2 := mapLookup_of_mem _ _ _ (by simpa using hkb) hnd
    have hlook2 : mapLookup (aggregatePortfolioHistory results startTs days tz) kb.1
        = some kb'.2 := by
      rw [hkk]
      exact mapLookup_of_mem _ _ _ (by simpa using hkb') hnd
    have := hlook1 ▸ hlook2
    exact Option.some.injEq _ _ ▸ this

/-- Evaluation of the aggregation of the concrete holding under a runtime
timezone of UTC plus one hour: both daily buckets sit at local midnight,
one hour before midnight UTC, and their derived dates are the previous UTC
days. -/
theorem aggMapTzEval :
    aggregatePortfolioHistory [rAgg] 0 30 3600000
      = [(428400000, ⟨4, 428400000, 0, 0, 0, 0,
            [("a1", ⟨0, 50, 1, "Bitcoin", some 10⟩)], true⟩),
          (1033200000, ⟨11, 1033200000, 61, 61, 0, 0,
            [("a1", ⟨61, 61, 1, "Bitcoin", some 10⟩)], true⟩)] := by
  have e1 : Int.fdiv 435600000 86400000 = 5 := by decide
  have e2 : Int.fdiv 1040400000 86400000 = 12 := by decide
  have e3 : Int.fdiv 1047600000 86400000 = 12 := by decide
  have e4 : Int.fdiv 428400000 86400000 = 4 := by decide
  have e5 : Int.fdiv 1033200000 86400000 = 11 := by decide
  norm_num [aggregatePortfolioHistory, applyPoint, updateBucket,
    bucketTs, mapLookup, mapInsert, newBucket, catAdd,
    rAgg, msPerDay, dateOfTs, e1, e2, e3, e4, e5]
  decide

/-- Counterexample for C6 as stated: with a runtime timezone of UTC plus
one hour, a thirty-day aggregation puts its buckets at local midnights
such as 428400000, which is not a multiple of 86400000, so the output
timestamps are not midnight UTC. -/
theorem grid_alignment_counterexample :
    ((aggregatePortfolioHistory [rAgg] 0 30 3600000).map fun kb => kb.2.timestamp)
      = [428400000, 1033200000]
    ∧ (428400000 : Int) % msPerDay ≠ 0 := by
  constructor
  · rw [aggMapTzEval]
    rfl
  · decide

/-- Witness for the amended C6: the first daily bucket of the concrete
aggregation under the UTC plus one hour timezone satisfies the local
midnight alignment. -/
theorem grid_alignment_witness :
    ((428400000 : Int) + 3600000) % msPerDay = 0 := by
  have hsort : aggregatedHistory [rAgg] 0 30 3600000
      = [⟨4, 428400000, 0, 0, 0, 0,
            [("a1", ⟨0, 50, 1, "Bitcoin", some 10⟩)], true⟩,
          ⟨11, 1033200000, 61, 61, 0, 0,
            [("a1", ⟨61, 61, 1, "Bitcoin", some 10⟩)], true⟩] := by
    rw [aggregatedHistory, aggMapTzEval]
    norm_num [sortByTs, insertByTs]
  have hmem : (⟨4, 428400000, 0, 0, 0, 0,
      [("a1", ⟨0, 50, 1, "Bitcoin", some 10⟩)], true⟩ : Bucket)
      ∈ aggregatedHistory [rAgg] 0 30 3600000 := by
    rw [hsort]
    simp
  have h := grid_alignment [rAgg] 0 30 3600000 _ _ hmem hmem
  have h3 := h.2.2.1 (by norm_num)
  simpa using h3

/-- Unfolding of calculatePerformance when the accurate tier returns null:
the remaining logic is the snapshot tier and then the unanchored tier. -/
theorem calculatePerformance_of_tier1_none (env : Env) (st : St) (d : DaysArg)
    (st1 : St) (hq : calculateStats env st d = (none, st1)) :
    calculatePerformance env st d
      = if 2 ≤ (getRange env.histStore (rangeArgOf d)).length then
          (some (mkLocalStats (getRange env.histStore (rangeArgOf d))), st1)
        else
          match calculatePortfolioHistory env st1 d with
          | (none, st2) => (none, st2)
          | (some h, st2) =>
              if h.length < 2 then (none, st2)
              else (some (mkHypotheticalStats h), st2) := by
  unfold calculatePerformance
  rw [hq]

/-- C3: the three tiers are tried in order and the first success wins. The
accurate tier never returns fewer than two data points when it succeeds;
when it succeeds its result is returned, tagged accurate and not
hypothetical; when it fails and at least two recorded snapshots exist in
range, their statistics are returned, tagged neither accurate nor
hypothetical; when those also fail, the unanchored estimate is returned
when it has at least two points, tagged hypothetical, and otherwise the
result is null; in particular with zero holdings and an empty snapshot
store the result is null. -/
theorem calculatePerformance_tiers (env : Env) (st : St) (d : DaysArg) :
    (∀ s, (calculateStats env st d).1 = some s → 2 ≤ s.dataPoints)
    ∧ (∀ s, (calculateStats env st d).1 = some s → 2 ≤ s.dataPoints →
        (calculatePerformance env st d).1 = some s
        ∧ s.isAccurate = true ∧ s.isHypothetical = false)
    ∧ ((calculateStats env st d).1 = none →
        2 ≤ (getRange env.histStore (rangeArgOf d)).length →
        (calculatePerformance env st d).1
            = some (mkLocalStats (getRange env.histStore (rangeArgOf d)))
        ∧ (mkLocalStats (getRange env.histStore (rangeArgOf d))).isAccurate = false
        ∧ (mkLocalStats (getRange env.histStore (rangeArgOf d))).isHypothetical
            = false)
    ∧ ((calculateStats env st d).1 = none →
        (getRange env.histStore (rangeArgOf d)).length < 2 →
        ∀ h st2,
          calculatePortfolioHistory env (calculateStats env st d).2 d
              = (some h, st2) →
          (2 ≤ h.length →
            (calculatePerformance env st d).1 = some (mkHypotheticalStats h)
            ∧ (mkHypotheticalStats h).isAccurate = false
            ∧ (mkHypotheticalStats h).isHypothetical = true)
          ∧ (h.length < 2 → (calculatePerformance env st d).1 = none))
    ∧ ((calculateStats env st d).1 = none →
        (getRange env.histStore (rangeArgOf d)).length < 2 →
        (calculatePortfolioHistory env (calculateStats env st d).2 d).1 = none →
        (calculatePerformance env st d).1 = none)
    ∧ (env.assets = [] → env.histStore = [] →
        (calculatePerformance env st d).1 = none) := by
  refine ⟨?_, ?_, ?_, ?_, ?_, ?_⟩
  · intro s hs
    unfold calculateStats at hs
    rcases ha : calculateAccuratePerformance env st d with ⟨t, st'⟩
    rw [ha] at hs
    cases t with
    | none => simp at hs
    | some h =>
        by_cases hlen : h.length < 2
        · simp [hlen] at hs
        · simp [hlen] at hs
          rw [← hs]
          simpa [mkAccurateStats] using not_lt.mp hlen
  · intro s hs h2
    rcases hq : calculateStats env st d with ⟨t1, st1⟩
    rw [hq] at hs
    simp at hs
    subst hs
    unfold calculatePerformance
    rw [hq]
    simp [h2]
    unfold calculateStats at hq
    rcases ha : calculateAccuratePerformance env st d with ⟨t, st'⟩
    rw [ha] at hq
    cases t with
    | none => simp at hq
    | some h =>
        by_cases hlen : h.length < 2
        · simp [hlen] at hq
        · simp [hlen] at hq
          rw [← hq.1]
          simp [mkAccurateStats]
  · intro hnone hl2
    rcases hq : calculateStats env st d with ⟨t1, st1⟩
    rw [hq] at hnone
    subst hnone
    unfold calculatePerformance
    rw [hq]
    simp [hl2, mkLocalStats]
  · intro hnone hl2 h st2 hph
    rcases hq : calculateStats env st d with ⟨t1, st1⟩
    rw [hq] at hnone hph
    subst hnone
    rw [calculatePerformance_of_tier1_none env st d st1 hq]
    rw [if_neg (by omega)]
    simp only at hph
    rw [hph]
    dsimp only
    constructor
    · intro h2
      rw [if_neg (by omega)]
      simp [mkHypotheticalStats]
    · intro h2
      rw [if_pos h2]
  · intro hnone hl2 hphn
    rcases hq : calculateStats env st d with ⟨t1, st1⟩
    rw [hq] at hnone hphn
    subst hnone
    rcases hp : calculatePortfolioHistory env st1 d with ⟨t2, st2⟩
    simp only at hphn
    rw [hp] at hphn
    simp at hphn
    subst hphn
    rw [calculatePerformance_of_tier1_none env st d st1 hq]
    rw [if_neg (by omega)]
    rw [hp]
  · intro hassets hstore
    have htracked : trackedOf env.assets = [] := by
      rw [hassets]; rfl
    have hcs : calculateStats env st d = (none, st) := by
      unfold calculateStats calculateAccuratePerformance
      rw [htracked]
      rfl
    have hrange : getRange env.histStore (rangeArgOf d) = [] := by
      rw [hstore]
      unfold getRange
      simp
    have hph : calculatePortfolioHistory env st d = (none, st) := by
      unfold calculatePortfolioHistory
      rw [hassets]
      rfl
    rw [calculatePerformance_of_tier1_none env st d st hcs]
    rw [hrange]
    simp only [List.length_nil]
    rw [if_neg (by omega)]
    rw [hph]

/-- Witness for C3: the base case with zero holdings and an empty snapshot
store returns null. -/
theorem calculatePerformance_tiers_witness :
    (calculatePerformance envEmpty ⟨[], 0⟩ (.n 30)).1 = none :=
  (calculatePerformance_tiers envEmpty ⟨[], 0⟩ (.n 30)).2.2.2.2.2 rfl rfl

/-- With every requested key a cache hit, the batch fetch leaves the state
untouched: nothing is fetched, nothing is written, no randomness is
consumed. -/
theorem batchFetch_warm_state (env : Env) (st : St) (assets : List Asset)
    (d : DaysArg)
    (hw : ∀ a ∈ assets, (mapLookup (getCache env.now st.cache)
        (cacheKey (identifierOf a) d)).isSome = true) :
    (batchFetchHistoricalPrices env st assets d).2 = st := by
  unfold batchFetchHistoricalPrices
  have hfil : (assets.filter fun a =>
      (mapLookup (getCache env.now st.cache)
        (cacheKey (identifierOf a) d)).isNone) = [] := by
    rw [List.filter_eq_nil]
    intro a ha
    have := hw a ha
    simp [Option.isNone_iff_eq_none]
    intro hn
    rw [hn] at this
    simp at this
  simp only [hfil, List.foldl_nil]

/-- C7: with the clock held fixed and a warm unexpired cache entry for
every tracked holding, the accurate reconstruction leaves the state
unchanged, and calling it twice in sequence yields identical output. -/
theorem reconstruct_idempotent_warm_cache (env : Env) (st : St) (d : DaysArg)
    (hw : ∀ a ∈ trackedOf env.assets,
      (mapLookup (getCache env.now st.cache)
        (cacheKey (identifierOf a) (DaysArg.n (totalDaysOf env d)))).isSome
        = true) :
    (calculateAccuratePerformance env
        ((calculateAccuratePerformance env st d).2) d).1
      = (calculateAccuratePerformance env st d).1
    ∧ (calculateAccuratePerformance env st d).2 = st := by
  have hsnd : (calculateAccuratePerformance env st d).2 = st := by
    unfold calculateAccuratePerformance
    by_cases he : (trackedOf env.assets).isEmpty = true
    · rw [if_pos he]
    · rw [if_neg he]
      exact batchFetch_warm_state env st (trackedOf env.assets) _ hw
  exact ⟨by rw [hsnd], hsnd⟩

/-- Witness for C7: the concrete one-holding environment with a warm cache
keeps its state across the reconstruction, so the second call starts from
the same state and the two outputs agree by the theorem. -/
theorem reconstruct_idempotent_warm_cache_witness :
    (calculateAccuratePerformance envC7
        ((calculateAccuratePerformance envC7 stC7 (.n 30)).2) (.n 30)).1
      = (calculateAccuratePerformance envC7 stC7 (.n 30)).1
    ∧ (calculateAccuratePerformance envC7 stC7 (.n 30)).2 = stC7 :=
  reconstruct_idempotent_warm_cache envC7 stC7 (.n 30) (by decide)

/-! Lemmas for the deep-clone heap model. -/

theorem cloneChildren_region (cl : Nat → Heap → Nat → Option (Heap × Nat × Nat))
    (hcl : ∀ a tgt next t' a' n', cl a tgt next = some (t', a', n') →
      next ≤ a' ∧ a' < n' ∧ next ≤ n' ∧ (∀ b, b < next → t' b = tgt b)) :
    ∀ (as : List Nat) (tgt : Heap) (next : Nat) (t' : Heap) (as' : List Nat)
      (n' : Nat), cloneChildren cl as tgt next = some (t', as', n') →
      next ≤ n' ∧ (∀ b, b < next → t' b = tgt b)
      ∧ ∀ x ∈ as', next ≤ x ∧ x < n' := by
  intro as
  induction as with
  | nil =>
      intro tgt next t' as' n' hc
      simp [cloneChildren] at hc
      obtain ⟨h1, h2, h3⟩ := hc
      subst h1; subst h2; subst h3
      exact ⟨le_refl _, fun b _ => rfl, by simp⟩
  | cons a rest ih =>
      intro tgt next t' as' n' hc
      cases hhd : cl a tgt next with
      | none => simp [cloneChildren, hhd] at hc
      | some r1 =>
          obtain ⟨t1, a1, nn1⟩ := r1
          cases htl : cloneChildren cl rest t1 nn1 with
          | none => simp [cloneChildren, hhd, htl] at hc
          | some r2 =>
              obtain ⟨t2, as1, nn2⟩ := r2
              simp only [cloneChildren, hhd, htl] at hc
              simp at hc
              obtain ⟨he1, he2, he3⟩ := hc
              subst he1; subst he2; subst he3
              obtain ⟨hh1, hh2, hh3, hh4⟩ := hcl a tgt next t1 a1 nn1 hhd
              obtain ⟨ht1, ht2, ht3⟩ := ih t1 nn1 t2 as1 nn2 htl
              refine ⟨le_trans hh3 ht1, ?_, ?_⟩
              · intro b hb
                rw [ht2 b (lt_of_lt_of_le hb hh3), hh4 b hb]
              · intro x hx
                rcases List.mem_cons.mp hx with hx | hx
                · subst hx
                  exact ⟨hh1, lt_of_lt_of_le hh2 ht1⟩
                · obtain ⟨hx1, hx2⟩ := ht3 x hx
                  exact ⟨le_trans hh3 hx1, hx2⟩

theorem cloneAddr_region (h : Heap) :
    ∀ (fuel : Nat) (a : Nat) (tgt : Heap) (next : Nat) (t' : Heap)
      (a' n' : Nat), cloneAddr h fuel a tgt next = some (t', a', n') →
      next ≤ a' ∧ a' < n' ∧ next ≤ n' ∧ (∀ b, b < next → t' b = tgt b) := by
  intro fuel
  induction fuel with
  | zero => intro a tgt next t' a' n' hc; simp [cloneAddr] at hc
  | succ fuel ih =>
      intro a tgt next t' a' n' hc
      cases hn : h a with
      | none => simp [cloneAddr, hn] at hc
      | some nd =>
          cases nd with
          | scalar s =>
              simp only [cloneAddr, hn] at hc
              simp at hc
              obtain ⟨he1, he2, he3⟩ := hc
              subst he1; subst he2; subst he3
              refine ⟨le_refl _, by omega, by omega, ?_⟩
              intro b hb
              simp [hupdate, Nat.ne_of_lt hb]
          | arr es =>
              cases hcc : cloneChildren (cloneAddr h fuel) es tgt next with
              | none => simp [cloneAddr, hn, hcc] at hc
              | some r =>
                  obtain ⟨t1, as1, nn1⟩ := r
                  simp only [cloneAddr, hn, hcc] at hc
                  simp at hc
                  obtain ⟨he1, he2, he3⟩ := hc
                  subst he1; subst he2; subst he3
                  obtain ⟨hr1, hr2, hr3⟩ := cloneChildren_region _ ih es tgt next t1 as1 nn1 hcc
                  refine ⟨hr1, by omega, by omega, ?_⟩
                  intro b hb
                  rw [hupdate]
                  rw [if_neg (by omega)]
                  exact hr2 b hb
          | obj ks es =>
              cases hcc : cloneChildren (cloneAddr h fuel) es tgt next with
              | none => simp [cloneAddr, hn, hcc] at hc
              | some r =>
                  obtain ⟨t1, as1, nn1⟩ := r
                  simp only [cloneAddr, hn, hcc] at hc
                  simp at hc
                  obtain ⟨he1, he2, he3⟩ := hc
                  subst he1; subst he2; subst he3
                  obtain ⟨hr1, hr2, hr3⟩ := cloneChildren_region _ ih es tgt next t1 as1 nn1 hcc
                  refine ⟨hr1, by omega, by omega, ?_⟩
                  intro b hb
                  rw [hupdate]
                  rw [if_neg (by omega)]
                  exact hr2 b hb

theorem readChildren_congr (rd rd' : Nat → Option JVal) :
    ∀ (as : List Nat), (∀ a ∈ as, rd a = rd' a) →
      readChildren rd as = readChildren rd' as := by
  intro as
  induction as with
  | nil => intro _; rfl
  | cons a rest ih =>
      intro hag
      unfold readChildren
      rw [hag a (by simp), ih fun x hx => hag x (by simp [hx])]

theorem readVal_frame (k : Nat) (h h2 : Heap) (hb : heapBounded h k)
    (hag : ∀ b, b < k → h2 b = h b) :
    ∀ (fuel : Nat) (a : Nat), a < k →
      readVal h2 fuel a = readVal h fuel a := by
  intro fuel
  induction fuel with
  | zero => intro a _; rfl
  | succ fuel ih =>
      intro a ha
      have h2a : h2 a = h a := hag a ha
      cases hn : h a with
      | none => simp [readVal, h2a, hn]
      | some nd =>
          cases nd with
          | scalar s => simp [readVal, h2a, hn]
          | arr es =>
              have hch : readChildren (readVal h2 fuel) es
                  = readChildren (readVal h fuel) es :=
                readChildren_congr _ _ es fun x hx =>
                  ih x (hb a ha _ hn x (by simp [nodeAddrs, hx]))
              simp [readVal, h2a, hn, hch]
          | obj ks es =>
              have hch : readChildren (readVal h2 fuel) es
                  = readChildren (readVal h fuel) es :=
                readChildren_congr _ _ es fun x hx =>
                  ih x (hb a ha _ hn x (by simp [nodeAddrs, hx]))
              simp [readVal, h2a, hn, hch]

theorem cloneChildren_read (cl : Nat → Heap → Nat → Option (Heap × Nat × Nat))
    (rd : Nat → Option JVal) (read2 : Heap → Nat → Option JVal)
    (hregion : ∀ a tgt next t' a' n', cl a tgt next = some (t', a', n') →
      next ≤ a' ∧ a' < n' ∧ next ≤ n' ∧ (∀ b, b < next → t' b = tgt b))
    (hread : ∀ a v tgt next t' a' n', rd a = some v →
      cl a tgt next = some (t', a', n') →
      ∀ t2 : Heap, (∀ b, next ≤ b → b < n' → t2 b = t' b) →
        read2 t2 a' = some v) :
    ∀ (as : List Nat) (vs : List JVal) (tgt : Heap) (next : Nat) (t' : Heap)
      (as' : List Nat) (n' : Nat),
      readChildren rd as = some vs →
      cloneChildren cl as tgt next = some (t', as', n') →
      ∀ t2 : Heap, (∀ b, next ≤ b → b < n' → t2 b = t' b) →
        readChildren (read2 t2) as' = some vs := by
  intro as
  induction as with
  | nil =>
      intro vs tgt next t' as' n' hr hc t2 hag
      simp [readChildren] at hr
      simp [cloneChildren] at hc
      obtain ⟨h1, h2, h3⟩ := hc
      subst h1; subst h2; subst h3
      simp [readChildren, ← hr]
  | cons a rest ih =>
      intro vs tgt next t' as' n' hr hc t2 hag
      cases hra : rd a with
      | none => simp [readChildren, hra] at hr
      | some v =>
          cases hrr : readChildren rd rest with
          | none => simp [readChildren, hra, hrr] at hr
          | some vs1 =>
              have hvs : vs = v :: vs1 := by
                simp [readChildren, hra, hrr] at hr
                exact hr.symm
              cases hhd : cl a tgt next with
              | none => simp [cloneChildren, hhd] at hc
              | some r1 =>
                  obtain ⟨t1, a1, nn1⟩ := r1
                  cases htl : cloneChildren cl rest t1 nn1 with
                  | none => simp [cloneChildren, hhd, htl] at hc
                  | some r2 =>
                      obtain ⟨t2c, as1, nn2⟩ := r2
                      simp only [cloneChildren, hhd, htl] at hc
                      simp at hc
                      obtain ⟨he1, he2, he3⟩ := hc
                      subst he1; subst he2; subst he3
                      obtain ⟨hh1, hh2, hh3, hh4⟩ := hregion a tgt next t1 a1 nn1 hhd
                      obtain ⟨ht1, ht2, ht3⟩ :=
                        cloneChildren_region cl hregion rest t1 nn1 t2c as1 nn2 htl
                      have hhead : read2 t2 a1 = some v := by
                        refine hread a v tgt next t1 a1 nn1 hra hhd t2 ?_
                        intro b hb1 hb2
                        rw [hag b hb1 (by omega), ht2 b (by omega)]
                      have htail : readChildren (read2 t2) as1 = some vs1 := by
                        refine ih vs1 t1 nn1 t2c as1 nn2 hrr htl t2 ?_
                        intro b hb1 hb2
                        exact hag b (by omega) hb2
                      subst hvs
                      simp [readChildren, hhead, htail]

theorem cloneAddr_read (h : Heap) :
    ∀ (fuel : Nat) (a : Nat) (v : JVal) (tgt : Heap) (next : Nat) (t' : Heap)
      (a' n' : Nat),
      readVal h fuel a = some v →
      cloneAddr h fuel a tgt next = some (t', a', n') →
      ∀ t2 : Heap, (∀ b, next ≤ b → b < n' → t2 b = t' b) →
        readVal t2 fuel a' = some v := by
  intro fuel
  induction fuel with
  | zero => intro a v tgt next t' a' n' hr; simp [readVal] at hr
  | succ fuel ih =>
      intro a v tgt next t' a' n' hr hc t2 hag
      cases hn : h a with
      | none => simp [readVal, hn] at hr
      | some nd =>
          cases nd with
          | scalar s =>
              have hv : v = .scalar s := by
                simp only [readVal, hn] at hr
                simp at hr
                exact hr.symm
              simp only [cloneAddr, hn] at hc
              simp at hc
              obtain ⟨he1, he2, he3⟩ := hc
              subst he1; subst he2; subst he3
              have ht2 : t2 next = some (.scalar s) := by
                rw [hag next (le_refl _) (by omega)]
                simp [hupdate]
              simp [readVal, ht2, hv]
          | arr es =>
              cases hrc : readChildren (readVal h fuel) es with
              | none => simp [readVal, hn, hrc] at hr
              | some vs =>
                  have hv : v = .arr vs := by
                    simp only [readVal, hn, hrc] at hr
                    simp at hr
                    exact hr.symm
                  cases hcc : cloneChildren (cloneAddr h fuel) es tgt next with
                  | none => simp [cloneAddr, hn, hcc] at hc
                  | some r =>
                      obtain ⟨t1, as1, nn1⟩ := r
                      simp only [cloneAddr, hn, hcc] at hc
                      simp at hc
                      obtain ⟨he1, he2, he3⟩ := hc
                      subst he1; subst he2; subst he3
                      obtain ⟨hr1, hr2, hr3⟩ := cloneChildren_region _
                        (cloneAddr_region h fuel) es tgt next t1 as1 nn1 hcc
                      have ht2 : t2 nn1 = some (.arr as1) := by
                        rw [hag nn1 (by omega) (by omega)]
                        simp [hupdate]
                      have hch : readChildren (readVal t2 fuel) as1 = some vs := by
                        refine cloneChildren_read _ _ _ (cloneAddr_region h fuel)
                          (ih) es vs tgt next t1 as1 nn1 hrc hcc t2 ?_
                        intro b hb1 hb2
                        rw [hag b hb1 (by omega)]
                        simp only [hupdate]
                        rw [if_neg (by omega)]
                      simp [readVal, ht2, hch, hv]
          | obj ks es =>
              cases hrc : readChildren (readVal h fuel) es with
              | none => simp [readVal, hn, hrc] at hr
              | some vs =>
                  have hv : v = .obj ks vs := by
                    simp only [readVal, hn, hrc] at hr
                    simp at hr
                    exact hr.symm
                  cases hcc : cloneChildren (cloneAddr h fuel) es tgt next with
                  | none => simp [cloneAddr, hn, hcc] at hc
                  | some r =>
                      obtain ⟨t1, as1, nn1⟩ := r
                      simp only [cloneAddr, hn, hcc] at hc
                      simp at hc
                      obtain ⟨he1, he2, he3⟩ := hc
                      subst he1; subst he2; subst he3
                      obtain ⟨hr1, hr2, hr3⟩ := cloneChildren_region _
                        (cloneAddr_region h fuel) es tgt next t1 as1 nn1 hcc
                      have ht2 : t2 nn1 = some (.obj ks as1) := by
                        rw [hag nn1 (by omega) (by omega)]
                        simp [hupdate]
                      have hch : readChildren (readVal t2 fuel) as1 = some vs := by
                        refine cloneChildren_read _ _ _ (cloneAddr_region h fuel)
                          (ih) es vs tgt next t1 as1 nn1 hrc hcc t2 ?_
                        intro b hb1 hb2
                        rw [hag b hb1 (by omega)]
                        simp only [hupdate]
                        rw [if_neg (by omega)]
                      simp [readVal, ht2, hch, hv]

/-- C10: getAssets returns a fresh deep copy of the stored holdings. With
the program-owned region of the heap closed below k, the assets cache root
inside it and allocation starting at or beyond k: the returned copy reads
back exactly the stored value; no address of the protected region,
including the cache and the persisted store, is written by the call; the
copy lives entirely in the fresh region; and after any further writes
confined to addresses at or beyond k, which covers every mutation of the
returned array or of any object inside it, the cache still reads back the
original value and a later getAssets call returns that same value again. -/
theorem getAssets_fresh_deep_copy (h : Heap) (k fuel root next : Nat)
    (v : JVal) (hb : heapBounded h k) (hroot : root < k) (hnext : k ≤ next)
    (hread : readVal h fuel root = some v)
    (heap1 : Heap) (a1 n1 : Nat)
    (hcall : getAssets h fuel root next = some (heap1, a1, n1)) :
    readVal heap1 fuel a1 = some v
    ∧ (∀ b, b < k → heap1 b = h b)
    ∧ k ≤ a1
    ∧ (∀ heap2 next2 heap3 a3 n3,
        (∀ b, b < k → heap2 b = heap1 b) →
        getAssets heap2 fuel root next2 = some (heap3, a3, n3) →
        readVal heap3 fuel a3 = some v) := by
  have hcall' : cloneAddr h fuel root h next = some (heap1, a1, n1) := hcall
  obtain ⟨hg1, hg2, hg3, hg4⟩ := cloneAddr_region h fuel root h next heap1 a1 n1 hcall'
  have hbelow : ∀ b, b < k → heap1 b = h b := fun b hbk =>
    hg4 b (lt_of_lt_of_le hbk hnext)
  refine ⟨?_, hbelow, le_trans hnext hg1, ?_⟩
  · exact cloneAddr_read h fuel root v h next heap1 a1 n1 hread hcall' heap1
      (fun _ _ _ => rfl)
  · intro heap2 next2 heap3 a3 n3 hag2 hcall2
    have hag2h : ∀ b, b < k → heap2 b = h b := fun b hbk =>
      (hag2 b hbk).trans (hbelow b hbk)
    have hread2 : readVal heap2 fuel root = some v := by
      rw [readVal_frame k h heap2 hb hag2h fuel root hroot]
      exact hread
    exact cloneAddr_read heap2 fuel root v heap2 next2 heap3 a3 n3 hread2
      hcall2 heap3 (fun _ _ _ => rfl)

/-- Witness for C10: cloning the concrete three-node assets value from the
protected region below 3 into fresh addresses from 3 returns a copy that
reads back the same value at a fresh root, and a second clone after the
first still reads back that value. -/
theorem getAssets_fresh_deep_copy_witness :
    ((getAssets heapC10 4 0 3).map fun r => readVal r.1 4 r.2.1)
      = some (some (.arr [.obj ["balance"] [.scalar (.num 5)]]))
    ∧ ((getAssets heapC10 4 0 3).map fun r => decide (3 ≤ r.2.1)) = some true := by
  have hcall : (getAssets heapC10 4 0 3).isSome = true := by decide
  obtain ⟨⟨heap1, a1, n1⟩, hsome⟩ := Option.isSome_iff_exists.mp hcall
  obtain ⟨w1, _, w3, _⟩ := getAssets_fresh_deep_copy heapC10 3 4 0 3
    (.arr [.obj ["balance"] [.scalar (.num 5)]])
    (by decide) (by decide) (by decide) (by rfl) heap1 a1 n1 hsome
  rw [hsome]
  constructor
  · simp [w1]
  · simp [w3]

end PortfolioTracker
